import Mathlib

set_option maxHeartbeats 1000000

/-!
Verification development for the json2tszod schema-inference core.

The definitions below are a shallow embedding of the TypeScript sources:

* `src/lib/infer/types.ts`   — the `InferredType` IR, `PropertyInfo`, diagnostics;
* `src/lib/infer/merge.ts`   — `typesEqual`, `flattenUnions`, `deduplicateTypes`,
  `mergeTypes`, `mergeObjectTypes`;
* `src/lib/infer/naming.ts`  — `toPascalCase`, `NameGenerator.generate`,
  `snakeToCamel`, `isSnakeCase`;
* `src/lib/infer/infer.ts`   — `inferType` and its inner `infer`, `inferArray`,
  `inferObject` closures (embedded with explicit state passing);
* `src/lib/generate/typescript.ts`, `zod.ts`, `example.ts` — the per-object
  emitters (`generateObjectDeclaration`, `generateObjectSchema`, `generateValue`).

JavaScript `Record` values are embedded as association lists in key-insertion
order; mutation of the shared diagnostics array, name-generator map and field
counter is embedded as explicit threading of an `InferState` value.  JavaScript
string case conversion is embedded with Lean's ASCII `Char.toUpper`/`toLower`
(the sources only ever produce ASCII identifiers in the cases the claims speak
about).  JS numbers appear in the inference engine only through `typeof`, so
the numeric payload of a JSON number is carried as an `Int` and never read.
-/

namespace J2T

/-- Kind of a JSON primitive type: the sub-kind carried by the source IR
variant `PrimitiveType` in `src/lib/infer/types.ts`. -/
inductive PrimKind where
  | string
  | number
  | boolean
  | null
  deriving DecidableEq, Repr

mutual
/-- Embedding of the `InferredType` IR union of `src/lib/infer/types.ts`.
`object` carries its property map as an association list in insertion order. -/
inductive InferredType where
  | primitive (t : PrimKind)
  | array (elementType : InferredType)
  | object (properties : List (String × PropertyInfo)) (typeName : String)
  | union (variants : List InferredType)
  | unknown
  | dateString
  deriving Repr

/-- Embedding of `PropertyInfo` of `src/lib/infer/types.ts`. -/
inductive PropertyInfo where
  | mk (type : InferredType) (optional : Bool) (nullable : Bool)
  deriving Repr
end

/-- Projection for the `type` field of `PropertyInfo`. -/
def PropertyInfo.type : PropertyInfo → InferredType
  | .mk t _ _ => t

/-- Projection for the `optional` field of `PropertyInfo`. -/
def PropertyInfo.optional : PropertyInfo → Bool
  | .mk _ o _ => o

/-- Projection for the `nullable` field of `PropertyInfo`. -/
def PropertyInfo.nullable : PropertyInfo → Bool
  | .mk _ _ n => n

/-- Embedding of the `ObjectType` interface of `src/lib/infer/types.ts`
(the payload of the `object` IR variant, used by `mergeObjectTypes`). -/
structure ObjectType where
  properties : List (String × PropertyInfo)
  typeName : String
  deriving Repr

/-- View an `ObjectType` as the corresponding `InferredType` node. -/
def ObjectType.toType (o : ObjectType) : InferredType :=
  .object o.properties o.typeName

/-- Partial inverse of `ObjectType.toType`: the narrowing
`elemType.kind === "object"` performed by `inferArray`. -/
def asObject : InferredType → Option ObjectType
  | .object props n => some ⟨props, n⟩
  | _ => none

/-- Embedding of a parsed JSON value (the `unknown` input of `inferType` after
`JSON.parse`): null, booleans, numbers, strings, arrays and objects.  Object
keys are listed in the order `Object.keys` yields them.  The numeric payload is
never inspected by the inference engine. -/
inductive Json where
  | null
  | bool (b : Bool)
  | num (n : Int)
  | str (s : String)
  | arr (elems : List Json)
  | obj (fields : List (String × Json))
  deriving Repr

/-- Diagnostic severity, embedding the string union `DiagnosticLevel`. -/
inductive DiagLevel where
  | error
  | warning
  | info
  deriving DecidableEq, Repr

/-- Embedding of the `Diagnostic` record of `src/lib/infer/types.ts`. -/
structure Diagnostic where
  level : DiagLevel
  message : String
  path : String
  deriving DecidableEq, Repr

/-- Embedding of `InferSettings`. -/
structure InferSettings where
  rootTypeName : String
  detectDates : Bool
  deriving Repr

/-- Embedding of the `outputStyle` string union of `GenerateSettings`. -/
inductive OutputStyle where
  | type
  | interface
  deriving DecidableEq, Repr

/-- Embedding of `GenerateSettings`. -/
structure GenerateSettings where
  rootTypeName : String
  outputStyle : OutputStyle
  strictObjects : Bool
  detectDates : Bool
  snakeToCamel : Bool
  deriving Repr

/-- The mutable context of one `inferType` run: the `diagnostics` array, the
`NameGenerator`'s `usedNames` map (an association list in insertion order) and
the `fieldCount` counter, threaded explicitly. -/
structure InferState where
  diagnostics : List Diagnostic
  usedNames : List (String × Nat)
  fieldCount : Nat
  deriving Repr

/-- Embedding of the `InferResult` record. -/
structure InferResult where
  type : InferredType
  diagnostics : List Diagnostic
  fieldCount : Nat
  deriving Repr

/-- Append one diagnostic, as `diagnostics.push(...)` does. -/
def pushDiag (st : InferState) (d : Diagnostic) : InferState :=
  { st with diagnostics := st.diagnostics ++ [d] }

/-! ## Association-list primitives (JS `Record` and `Map` access) -/

/-- First-match association lookup: `record[key]` / `map.get(key)`. -/
def assocLookup (k : String) : List (String × α) → Option α
  | [] => none
  | (k₁, v) :: rest => if k₁ = k then some v else assocLookup k rest

/-- `map.set(key, v)`: overwrite the first binding of `key`, or append. -/
def assocSet (k : String) (v : α) : List (String × α) → List (String × α)
  | [] => [(k, v)]
  | (k₁, v₁) :: rest => if k₁ = k then (k, v) :: rest else (k₁, v₁) :: assocSet k v rest

/-- Key list of a property record, `Object.keys`, in insertion order. -/
def keysOf (props : List (String × PropertyInfo)) : List String :=
  props.map Prod.fst

/-- Sorted key list, `Object.keys(r).sort()` (lexicographic string order). -/
def sortedKeys (props : List (String × PropertyInfo)) : List String :=
  (keysOf props).mergeSort (fun a b => decide (a ≤ b))

/-! ## Naming utilities (`src/lib/infer/naming.ts`) -/

/-- The replacement `str.replace(/([a-z])([A-Z])/g, "$1_$2")`: insert an
underscore between a lowercase letter and the uppercase letter following it. -/
def camelBoundary : List Char → List Char
  | [] => []
  | a :: rest =>
    match rest with
    | [] => [a]
    | b :: _ =>
      if a.isLower && b.isUpper then a :: '_' :: camelBoundary rest
      else a :: camelBoundary rest

/-- Separator class of the split regex `[_\-\s]+` (underscore, hyphen,
whitespace). -/
def isSegSep (c : Char) : Bool :=
  c = '_' || c = '-' || c = ' ' || c = '\t' || c = '\n' || c = '\r' || c = '\x0b' || c = '\x0c'

/-- Split at separator runs, dropping empty pieces — the source's
`.split(/[_\-\s]+/).filter(Boolean)` composed into one pass. -/
def splitSegsAux (cur : List Char) : List Char → List (List Char)
  | [] => if cur.isEmpty then [] else [cur.reverse]
  | c :: rest =>
    if isSegSep c then
      if cur.isEmpty then splitSegsAux [] rest else cur.reverse :: splitSegsAux [] rest
    else splitSegsAux (c :: cur) rest

/-- One word of `toPascalCase`:
`word.charAt(0).toUpperCase() + word.slice(1).toLowerCase()`. -/
def capitalizeWord : List Char → List Char
  | [] => []
  | c :: rest => c.toUpper :: rest.map Char.toLower

/-- Embedding of `toPascalCase` of `src/lib/infer/naming.ts`. -/
def toPascalCase (s : String) : String :=
  String.join ((splitSegsAux [] (camelBoundary s.data)).map (fun w => String.mk (capitalizeWord w)))

/-- Scan of `str.replace(/_([a-z])/g, (_, l) => l.toUpperCase())`: an
underscore directly followed by a lowercase letter is replaced by that
letter uppercased. -/
def snakeToCamelAux : List Char → List Char
  | '_' :: c :: rest =>
    if c.isLower then c.toUpper :: snakeToCamelAux rest
    else '_' :: snakeToCamelAux (c :: rest)
  | c :: rest => c :: snakeToCamelAux rest
  | [] => []

/-- Embedding of `snakeToCamel` of `src/lib/infer/naming.ts`. -/
def snakeToCamel (s : String) : String :=
  String.mk (snakeToCamelAux s.data)

/-- Character class `[a-z0-9]` of the `isSnakeCase` regex. -/
def lowerDigit (c : Char) : Bool :=
  c.isLower || c.isDigit

/-- Matcher for the regex tail `[a-z0-9]*(_[a-z0-9]+)+$` (after the leading
`[a-z]`); `seen` records whether an underscore group was completed. -/
def snakeTail : List Char → Bool → Bool
  | [], seen => seen
  | c :: rest, seen =>
    if lowerDigit c then snakeTail rest seen
    else if c = '_' then
      match rest with
      | [] => false
      | d :: rest₂ => lowerDigit d && snakeTail rest₂ true
    else false

/-- Embedding of `isSnakeCase` of `src/lib/infer/naming.ts`: the regex
`^[a-z][a-z0-9]*(_[a-z0-9]+)+$`. -/
def isSnakeCase (s : String) : Bool :=
  match s.data with
  | [] => false
  | c :: rest => c.isLower && snakeTail rest false

/-! ## ISO-8601 matcher (`ISO_DATE_REGEX` in `src/lib/infer/infer.ts`)

The regex is
`^\d4-\d2-\d2(T\d2:\d2(:\d2(\.\d+)?)?(Z|[+-]\d2:?\d2)?)?$`
(with the counts in braces in the source); its alternation points are
determined by the next character, so this deterministic matcher is
equivalent to the backtracking regex engine on it. -/

/-- Consume exactly `n` ASCII digits. -/
def takeDigits : Nat → List Char → Option (List Char)
  | 0, l => some l
  | _ + 1, [] => none
  | n + 1, c :: l => if c.isDigit then takeDigits n l else none

/-- Numeric offset after the sign: two digits, an optional colon, two digits,
then end of input. -/
def isoOffset (l : List Char) : Bool :=
  match takeDigits 2 l with
  | none => false
  | some l₂ =>
    match l₂ with
    | ':' :: l₃ => takeDigits 2 l₃ = some []
    | _ => takeDigits 2 l₂ = some []

/-- Optional timezone: nothing, a final `Z`, or a signed numeric offset. -/
def isoZone : List Char → Bool
  | [] => true
  | ['Z'] => true
  | c :: rest => (c = '+' || c = '-') && isoOffset rest

/-- Optional fraction (a dot followed by one or more digits) then timezone. -/
def isoFrac : List Char → Bool
  | '.' :: rest =>
    (match rest with
     | c :: _ => c.isDigit && isoZone (rest.dropWhile Char.isDigit)
     | [] => false)
  | l => isoZone l

/-- Optional seconds (`:` and two digits, with optional fraction) then
timezone. -/
def isoSeconds : List Char → Bool
  | ':' :: rest =>
    (match takeDigits 2 rest with
     | some l₂ => isoFrac l₂
     | none => false)
  | l => isoZone l

/-- Optional time-of-day: end of input, or `T`, two digits, `:`, two digits,
optional seconds and timezone. -/
def isoTime : List Char → Bool
  | [] => true
  | 'T' :: rest =>
    (match takeDigits 2 rest with
     | some (':' :: l₂) =>
       (match takeDigits 2 l₂ with
        | some l₃ => isoSeconds l₃
        | none => false)
     | _ => false)
  | _ => false

/-- Embedding of `ISO_DATE_REGEX.test`: full date `dddd-dd-dd` followed by the
optional time part. -/
def isoMatch (s : String) : Bool :=
  match takeDigits 4 s.data with
  | some ('-' :: l₁) =>
    (match takeDigits 2 l₁ with
     | some ('-' :: l₂) =>
       (match takeDigits 2 l₂ with
        | some l₃ => isoTime l₃
        | none => false)
     | _ => false)
  | _ => false

/-- Join a structural path with dots: `path.join(".")`. -/
def pathJoin (path : List String) : String :=
  String.intercalate "." path

/-- Indentation string `"  ".repeat(indent)`. -/
def padOf (indent : Nat) : String :=
  String.join (List.replicate indent "  ")

/-- Embedding of `toSchemaName` (shared by the zod and example generators):
first character lowercased, then the rest, then `"Schema"`. -/
def toSchemaName (typeName : String) : String :=
  match typeName.data with
  | [] => "Schema"
  | c :: rest => String.mk (c.toLower :: rest) ++ "Schema"

/-! ## Structural equality (`typesEqual` in `src/lib/infer/merge.ts`) -/

/-- A successful association lookup returns a binding of the list. -/
theorem assocLookup_mem {α : Type} {k : String} {l : List (String × α)} {v : α}
    (h : assocLookup k l = some v) : (k, v) ∈ l := by
  induction l with
  | nil => simp [assocLookup] at h
  | cons kv rest ih =>
    obtain ⟨k₁, v₁⟩ := kv
    by_cases hk : k₁ = k
    · subst hk
      simp [assocLookup] at h
      subst h
      exact List.mem_cons_self _ _
    · simp [assocLookup, hk] at h
      exact List.mem_cons_of_mem _ (ih h)

/-- The type stored under a key is smaller than the whole property list
(termination measure for `typesEqual` on objects). -/
theorem sizeOf_type_lt_of_lookup {k : String} {l : List (String × PropertyInfo)} {p : PropertyInfo}
    (h : assocLookup k l = some p) : sizeOf p.type < sizeOf l := by
  have hm := List.sizeOf_lt_of_mem (assocLookup_mem h)
  obtain ⟨t, o, n⟩ := p
  simp [PropertyInfo.type] at *
  omega

mutual
/-- Embedding of `typesEqual` of `src/lib/infer/merge.ts`.  The object case
compares the sorted key lists pointwise and looks the shared key up in both
property records, exactly as the source does; `optional`/`nullable` flags are
deliberately ignored. -/
def typesEqual : InferredType → InferredType → Bool
  | .primitive a, .primitive b => a == b
  | .unknown, .unknown => true
  | .dateString, .dateString => true
  | .array a, .array b => typesEqual a b
  | .union as, .union bs => as.length == bs.length && unionVariantsEqual as bs
  | .object aP _, .object bP _ =>
    (sortedKeys aP).length == (sortedKeys bP).length &&
      objKeysEqual aP bP ((sortedKeys aP).zip (sortedKeys bP))
  | _, _ => false
termination_by a b => (sizeOf a + sizeOf b, 0)
decreasing_by
  all_goals simp_wf
  all_goals refine Prod.Lex.left _ _ ?_
  all_goals omega

/-- Pointwise comparison `a.variants.every((av, i) => typesEqual(av,
b.variants[i]))`, evaluated under the length guard of the union case. -/
def unionVariantsEqual : List InferredType → List InferredType → Bool
  | [], _ => true
  | _ :: _, [] => true
  | a :: as, b :: bs => typesEqual a b && unionVariantsEqual as bs
termination_by as bs => (sizeOf as + sizeOf bs, 0)
decreasing_by
  all_goals simp_wf
  all_goals refine Prod.Lex.left _ _ ?_
  all_goals omega

/-- Pointwise body of `aKeys.every((k, i) => k === bKeys[i] &&
typesEqual(a.properties[k].type, b.properties[k].type))` over the zipped
sorted key lists. -/
def objKeysEqual (aP bP : List (String × PropertyInfo)) : List (String × String) → Bool
  | [] => true
  | (k₁, k₂) :: rest =>
    k₁ == k₂ &&
      (match h₁ : assocLookup k₁ aP, h₂ : assocLookup k₁ bP with
       | some pa, some pb => typesEqual pa.type pb.type
       | _, _ => false) &&
      objKeysEqual aP bP rest
termination_by l => (sizeOf aP + sizeOf bP, sizeOf l)
decreasing_by
  all_goals simp_wf
  · refine Prod.Lex.left _ _ ?_
    have h₁' := sizeOf_type_lt_of_lookup h₁
    have h₂' := sizeOf_type_lt_of_lookup h₂
    omega
  · refine Prod.Lex.right _ ?_
    omega
end

/-! ## Union merging (`src/lib/infer/merge.ts`) -/

/-- Kind test `t.kind === "unknown"`. -/
def isUnknownType : InferredType → Bool
  | .unknown => true
  | _ => false

/-- Kind test `t.kind === "union"`. -/
def isUnionType : InferredType → Bool
  | .union _ => true
  | _ => false

/-- Kind test `t.kind === "object"`. -/
def isObjectType : InferredType → Bool
  | .object _ _ => true
  | _ => false

/-- The check `v.kind === "primitive" && v.type === "null"`. -/
def isNullPrim : InferredType → Bool
  | .primitive .null => true
  | _ => false

/-- Embedding of `flattenUnions`: replace every union input by its variants,
transitively. -/
def flattenUnions : List InferredType → List InferredType
  | [] => []
  | t :: ts =>
    match t with
    | .union vs => flattenUnions vs ++ flattenUnions ts
    | _ => t :: flattenUnions ts

/-- Accumulator loop of `deduplicateTypes`: keep an element only when no
earlier kept element is structurally equal to it. -/
def dedupAux (acc : List InferredType) : List InferredType → List InferredType
  | [] => acc
  | t :: ts =>
    if acc.any (fun r => typesEqual r t) then dedupAux acc ts
    else dedupAux (acc ++ [t]) ts

/-- Embedding of `deduplicateTypes`. -/
def deduplicateTypes (types : List InferredType) : List InferredType :=
  dedupAux [] types

/-- Embedding of `mergeTypes`: flatten unions, deduplicate, drop `unknown`
entries when concrete types remain, unwrap a single survivor. -/
def mergeTypes (types : List InferredType) : InferredType :=
  match types with
  | [] => .unknown
  | _ =>
    let flat := flattenUnions types
    let deduped := deduplicateTypes flat
    let meaningful := deduped.filter (fun t => !isUnknownType t)
    let finalTypes := if meaningful.length > 0 then meaningful else deduped
    match finalTypes with
    | [t] => t
    | _ => .union finalTypes

/-! ## Object merging (`mergeObjectTypes` in `src/lib/infer/merge.ts`) -/

/-- One step of the key-collecting `Set`: insertion order, first occurrence
wins. -/
def addKey (acc : List String) (k : String) : List String :=
  if acc.contains k then acc else acc ++ [k]

/-- The key set `allKeys` collected across all input objects, in first-seen
order (JS `Set` iteration order). -/
def allKeys (objects : List ObjectType) : List String :=
  ((objects.map (fun o => keysOf o.properties)).flatten).foldl addKey []

/-- The `typesForKey` list collected by the merging loop: the property type of
every input object that has the key, in input order. -/
def typesForKey (objects : List ObjectType) (k : String) : List InferredType :=
  objects.filterMap (fun o => (assocLookup k o.properties).map PropertyInfo.type)

/-- The `presentCount` of the merging loop. -/
def presentCount (objects : List ObjectType) (k : String) : Nat :=
  objects.countP (fun o => (assocLookup k o.properties).isSome)

/-- The `nullableCount` of the merging loop. -/
def nullableCount (objects : List ObjectType) (k : String) : Nat :=
  objects.countP (fun o => ((assocLookup k o.properties).map PropertyInfo.nullable).getD false)

/-- Body of the per-key merging loop of `mergeObjectTypes`: optionality from
`presentCount`, nullability from `nullableCount`, union-merge of the occurrence
types, and the null-variant strip on a merged union. -/
def mergeProp (objects : List ObjectType) (k : String) : PropertyInfo :=
  let isOptional := decide (presentCount objects k < objects.length)
  let isNullable := decide (0 < nullableCount objects k)
  let mergedType := mergeTypes (typesForKey objects k)
  match mergedType with
  | .union vs =>
    if vs.any isNullPrim then
      match vs.filter (fun v => !isNullPrim v) with
      | [t] => .mk t isOptional true
      | [] => .mk (.primitive .null) isOptional true
      | nonNullVariants => .mk (.union nonNullVariants) isOptional true
    else .mk mergedType isOptional isNullable
  | _ => .mk mergedType isOptional isNullable

/-- Embedding of `mergeObjectTypes`: zero inputs give an empty object, one
input is returned as-is with the name overwritten, otherwise every collected
key is merged with `mergeProp`. -/
def mergeObjectTypes (objects : List ObjectType) (typeName : String) : ObjectType :=
  match objects with
  | [] => ⟨[], typeName⟩
  | [o] => ⟨o.properties, typeName⟩
  | _ => ⟨(allKeys objects).map (fun k => (k, mergeProp objects k)), typeName⟩

/-! ## Name generation (`NameGenerator` in `src/lib/infer/naming.ts`) -/

/-- The candidate name of one `generate` call: PascalCase segments joined, or
the literal `"Root"` when that is empty (`base || "Root"`). -/
def candidateOf (pathSegments : List String) : String :=
  let base := String.join (pathSegments.map toPascalCase)
  if base = "" then "Root" else base

/-- Embedding of `NameGenerator.generate`: the `usedNames` map is threaded
explicitly.  A first use of a candidate returns it bare; later uses append the
occurrence count (2, 3, ...). -/
def generate (used : List (String × Nat)) (pathSegments : List String) :
    String × List (String × Nat) :=
  let candidateName := candidateOf pathSegments
  let count := (assocLookup candidateName used).getD 0
  let used' := assocSet candidateName (count + 1) used
  (if count = 0 then candidateName else candidateName ++ Nat.repr (count + 1), used')

/-- A sequence of `generate` calls against one `NameGenerator` instance,
starting from the fresh (empty) map. -/
def runGenAux (used : List (String × Nat)) : List (List String) → List String
  | [] => []
  | segs :: rest =>
    let p := generate used segs
    p.1 :: runGenAux p.2 rest

/-- The list of names a fresh `NameGenerator` produces for the given calls. -/
def runGen (calls : List (List String)) : List String :=
  runGenAux [] calls

/-! ## The inference engine (`src/lib/infer/infer.ts`)

The inner closures `infer`, `inferArray`, `inferObject` share the mutable
`diagnostics`, `nameGen` and `fieldCount` of one `inferType` call; they are
embedded as mutually recursive functions threading an `InferState`.
`inferElems` and `inferProps` are the element and key loops of `inferArray`
and `inferObject` written as recursion over the remaining items. -/

/-- Allocate a name against the state's `usedNames` map. -/
def genName (st : InferState) (segs : List String) : String × InferState :=
  let p := generate st.usedNames segs
  (p.1, { st with usedNames := p.2 })

/-- The info diagnostic pushed when a date string is detected. -/
def isoDateDiag (path : List String) : Diagnostic :=
  ⟨.info, "Detected ISO date string at \"" ++ pathJoin path ++ "\"", pathJoin path⟩

/-- The location text `path.join(".") || "root"` used by the array warnings. -/
def locOf (path : List String) : String :=
  if pathJoin path = "" then "root" else pathJoin path

/-- The warning pushed for an empty array. -/
def emptyArrayDiag (path : List String) : Diagnostic :=
  ⟨.warning, "Empty array at \"" ++ locOf path ++ "\". Defaulting to unknown[].", pathJoin path⟩

/-- The warning pushed for an array of mixed non-object element types. -/
def mixedTypesDiag (path : List String) : Diagnostic :=
  ⟨.warning, "Mixed element types in array at \"" ++ locOf path ++ "\".", pathJoin path⟩

/-- The warning pushed for an array mixing objects and non-objects. -/
def mixedObjectsDiag (path : List String) : Diagnostic :=
  ⟨.warning, "Mixed element types (objects and primitives) in array at \"" ++ locOf path ++ "\".",
    pathJoin path⟩

/-- The error diagnostic for a non-object, non-array root value. -/
def rootErrorDiag : Diagnostic :=
  ⟨.error, "Root value must be an object or array.", ""⟩

/-- The test `p.startsWith("[")` (the prefix is the single character `[`, so
this is a first-character test). -/
def startsWithBracket (p : String) : Bool :=
  match p.data with
  | '[' :: _ => true
  | _ => false

/-- The path segments that contribute to a type name: index segments
(`path.filter(p => !p.startsWith("["))` in the source) are dropped. -/
def namePath (path : List String) : List String :=
  path.filter (fun p => !startsWithBracket p)

mutual
/-- Embedding of the inner `infer(val, path)` closure of `inferType`. -/
def infer (s : InferSettings) : Json → List String → InferState → InferredType × InferState
  | .null, _, st => (.primitive .null, st)
  | .str v, path, st =>
    if s.detectDates && isoMatch v then (.dateString, pushDiag st (isoDateDiag path))
    else (.primitive .string, st)
  | .num _, _, st => (.primitive .number, st)
  | .bool _, _, st => (.primitive .boolean, st)
  | .arr xs, path, st => inferArray s xs path st
  | .obj kvs, path, st =>
    let p := inferObject s kvs path st
    (p.1.toType, p.2)
termination_by v _ _ => (sizeOf v, 2)
decreasing_by
  all_goals simp_wf
  all_goals first
    | (refine Prod.Lex.left _ _ ?_ ; omega)
    | (refine Prod.Lex.right _ ?_ ; omega)

/-- Embedding of the inner `inferArray(arr, path)` closure. -/
def inferArray (s : InferSettings) (xs : List Json) (path : List String) (st : InferState) :
    InferredType × InferState :=
  if xs.isEmpty then (.array .unknown, pushDiag st (emptyArrayDiag path))
  else
    let p := inferElems s xs path 0 st
    let types := p.1
    let st₁ := p.2
    let objectElements := types.filterMap asObject
    let otherElements := types.filter (fun t => !isObjectType t)
    if objectElements.length = xs.length then
      let q := genName st₁ (namePath path ++ ["item"])
      (.array (mergeObjectTypes objectElements q.1).toType, q.2)
    else if objectElements.length = 0 then
      let merged := mergeTypes otherElements
      let st₂ := if isUnionType merged then pushDiag st₁ (mixedTypesDiag path) else st₁
      (.array merged, st₂)
    else
      let st₂ := pushDiag st₁ (mixedObjectsDiag path)
      let q := genName st₂ (namePath path ++ ["item"])
      let allTypes := otherElements ++ [(mergeObjectTypes objectElements q.1).toType]
      (.array (mergeTypes allTypes), q.2)
termination_by (sizeOf xs, 1)
decreasing_by
  all_goals simp_wf
  all_goals refine Prod.Lex.right _ ?_
  all_goals omega

/-- The element loop of `inferArray`: infer every element at path
`parent[[i]]`, in order, collecting the element types. -/
def inferElems (s : InferSettings) (xs : List Json) (path : List String) (i : Nat)
    (st : InferState) : List InferredType × InferState :=
  match xs with
  | [] => ([], st)
  | x :: rest =>
    let p := infer s x (path ++ ["[" ++ Nat.repr i ++ "]"]) st
    let q := inferElems s rest path (i + 1) p.2
    (p.1 :: q.1, q.2)
termination_by (sizeOf xs, 0)
decreasing_by
  all_goals simp_wf
  all_goals refine Prod.Lex.left _ _ ?_
  all_goals omega

/-- Embedding of the inner `inferObject(obj, path)` closure. -/
def inferObject (s : InferSettings) (kvs : List (String × Json)) (path : List String)
    (st : InferState) : ObjectType × InferState :=
  let p := inferProps s kvs path st
  let q := genName p.2 (if path.isEmpty then [s.rootTypeName] else namePath path)
  (⟨p.1, q.1⟩, q.2)
termination_by (sizeOf kvs, 1)
decreasing_by
  all_goals simp_wf
  all_goals refine Prod.Lex.right _ ?_
  all_goals omega

/-- The key loop of `inferObject`: count the field, infer the value at the
child path, and turn a literal-null value into
`PropertyInfo(type Unknown, optional false, nullable true)`. -/
def inferProps (s : InferSettings) (kvs : List (String × Json)) (path : List String)
    (st : InferState) : List (String × PropertyInfo) × InferState :=
  match kvs with
  | [] => ([], st)
  | (k, v) :: rest =>
    let st₀ := { st with fieldCount := st.fieldCount + 1 }
    let p := infer s v (path ++ [k]) st₀
    let info : PropertyInfo :=
      if isNullPrim p.1 then .mk .unknown false true
      else .mk p.1 false false
    let q := inferProps s rest path p.2
    ((k, info) :: q.1, q.2)
termination_by (sizeOf kvs, 0)
decreasing_by
  all_goals simp_wf
  all_goals refine Prod.Lex.left _ _ ?_
  all_goals omega
end

/-- The root check `typeof value === "object" && value !== null`. -/
def isRootContainer : Json → Bool
  | .arr _ => true
  | .obj _ => true
  | _ => false

/-- Embedding of the exported `inferType(value, settings)`: run `infer` from a
fresh state; an object root gets its `typeName` overwritten with the configured
root name; a non-container root pushes an error diagnostic first and still
returns the best-effort IR. -/
def inferType (value : Json) (s : InferSettings) : InferResult :=
  let st₀ : InferState := ⟨[], [], 0⟩
  if isRootContainer value then
    let p := infer s value [] st₀
    let rootType :=
      match p.1 with
      | .object props _ => .object props s.rootTypeName
      | t => t
    ⟨rootType, p.2.diagnostics, p.2.fieldCount⟩
  else
    let st₁ := pushDiag st₀ rootErrorDiag
    let p := infer s value [] st₁
    ⟨p.1, p.2.diagnostics, p.2.fieldCount⟩

/-! ## Generators (`src/lib/generate/typescript.ts`, `zod.ts`, `example.ts`)

The claims concern the per-object emitters and the per-type renderings; the
top-level document assembly and the asynchronous Prettier pass are outside the
inference core specified here. -/

/-- The type component of a property is smaller than the key/property pair
(termination measure for the generators). -/
theorem sizeOf_ptype_lt (kp : String × PropertyInfo) : sizeOf kp.2.type < sizeOf kp := by
  obtain ⟨k, p⟩ := kp
  obtain ⟨t, o, n⟩ := p
  simp [PropertyInfo.type]
  omega

/-- Embedding of `typeToTS` of `src/lib/generate/typescript.ts`.  The
`settings` argument is passed through as in the source (it is never read). -/
def typeToTS (t : InferredType) (gs : GenerateSettings) : String :=
  match t with
  | .primitive .string => "string"
  | .primitive .number => "number"
  | .primitive .boolean => "boolean"
  | .primitive .null => "null"
  | .unknown => "unknown"
  | .dateString => "string"
  | .array e =>
    if isUnionType e then "(" ++ typeToTS e gs ++ ")[]"
    else typeToTS e gs ++ "[]"
  | .union vs => String.intercalate " | " (vs.attach.map (fun x => typeToTS x.1 gs))
  | .object _ typeName => typeName
termination_by sizeOf t
decreasing_by
  all_goals simp_wf
  all_goals first
    | omega
    | (have h := List.sizeOf_lt_of_mem x.2 ; omega)

/-- Embedding of `typeToZod` of `src/lib/generate/zod.ts`, including the
redundant two-variant branch of the union case. -/
def typeToZod (t : InferredType) (gs : GenerateSettings) : String :=
  match t with
  | .primitive .string => "z.string()"
  | .primitive .number => "z.number()"
  | .primitive .boolean => "z.boolean()"
  | .primitive .null => "z.null()"
  | .unknown => "z.unknown()"
  | .dateString => if gs.detectDates then "z.string().datetime()" else "z.string()"
  | .array e => "z.array(" ++ typeToZod e gs ++ ")"
  | .union vs =>
    let variants := vs.attach.map (fun x => typeToZod x.1 gs)
    if variants.length = 2 then "z.union([" ++ String.intercalate ", " variants ++ "])"
    else "z.union([" ++ String.intercalate ", " variants ++ "])"
  | .object _ typeName => toSchemaName typeName
termination_by sizeOf t
decreasing_by
  all_goals simp_wf
  all_goals first
    | omega
    | (have h := List.sizeOf_lt_of_mem x.2 ; omega)

mutual
/-- Embedding of `generateValue` of `src/lib/generate/example.ts` (the
representative-value rule).  On the empty-union corner the source would fault;
that input never arises from the pipeline and is rendered as `undefined`. -/
def generateValue (t : InferredType) (gs : GenerateSettings) (indent : Nat) : String :=
  match t with
  | .primitive .string => "\"\""
  | .primitive .number => "0"
  | .primitive .boolean => "false"
  | .primitive .null => "null"
  | .unknown => "undefined"
  | .dateString => "\"2025-01-01T00:00:00.000Z\""
  | .array e => "[" ++ generateValue e gs indent ++ "]"
  | .union vs =>
    (match h : vs.find? (fun v => !isNullPrim v) with
     | some v => generateValue v gs indent
     | none =>
       match vs with
       | v :: _ => generateValue v gs indent
       | [] => "undefined")
  | .object props _ =>
    if props.isEmpty then "\x7b\x7d"
    else
      "\x7b\n" ++ String.intercalate "\n" (props.attach.map (fun x => exampleField gs indent x.1)) ++
        "\n" ++ padOf indent ++ "\x7d"
termination_by (sizeOf t, 1)
decreasing_by
  all_goals simp_wf
  all_goals refine Prod.Lex.left _ _ ?_
  · omega
  · have h₁ := List.sizeOf_lt_of_mem (List.mem_of_find?_eq_some h)
    omega
  · omega
  · have h₁ := List.sizeOf_lt_of_mem x.2
    omega

/-- One property line of the example object: the snake-to-camel key rewrite
and the `null`-for-nullable representative value. -/
def exampleField (gs : GenerateSettings) (indent : Nat) (kp : String × PropertyInfo) : String :=
  let tsKey := if gs.snakeToCamel && isSnakeCase kp.1 then snakeToCamel kp.1 else kp.1
  let v := if kp.2.nullable then "null" else generateValue kp.2.type gs (indent + 1)
  padOf (indent + 1) ++ tsKey ++ ": " ++ v ++ ","
termination_by (sizeOf kp, 0)
decreasing_by
  all_goals simp_wf
  refine Prod.Lex.left _ _ ?_
  have h₁ := sizeOf_ptype_lt kp
  omega
end

/-- One field line of `generateObjectDeclaration`: optional snake-to-camel key
rewrite, `?` for optional, `| null` appended for nullable. -/
def declFieldEntry (gs : GenerateSettings) (kp : String × PropertyInfo) : String :=
  let tsKey := if gs.snakeToCamel && isSnakeCase kp.1 then snakeToCamel kp.1 else kp.1
  let tsType := typeToTS kp.2.type gs
  let nullablePart := if kp.2.nullable then " | null" else ""
  let optionalPart := if kp.2.optional then "?" else ""
  "  " ++ tsKey ++ optionalPart ++ ": " ++ tsType ++ nullablePart ++ ";"

/-- The `snakeConversions` comment lines collected by
`generateObjectDeclaration`, one per rewritten key, in property order. -/
def declAnnotations (gs : GenerateSettings) (props : List (String × PropertyInfo)) : List String :=
  props.filterMap (fun kp =>
    if gs.snakeToCamel && isSnakeCase kp.1 then
      some ("  // \"" ++ snakeToCamel kp.1 ++ "\" maps to JSON key \"" ++ kp.1 ++ "\"")
    else none)

/-- Embedding of `generateObjectDeclaration` of
`src/lib/generate/typescript.ts`. -/
def generateObjectDeclaration (o : ObjectType) (gs : GenerateSettings) : String :=
  let fields := o.properties.map (declFieldEntry gs)
  let anns := declAnnotations gs o.properties
  let comment := if anns.isEmpty then "" else "/**\n" ++ String.intercalate "\n" anns ++ "\n */\n"
  match gs.outputStyle with
  | .interface =>
    comment ++ "export interface " ++ o.typeName ++ " \x7b\n" ++
      String.intercalate "\n" fields ++ "\n\x7d"
  | .type =>
    comment ++ "export type " ++ o.typeName ++ " = \x7b\n" ++
      String.intercalate "\n" fields ++ "\n\x7d;"

/-- One field line of `generateObjectSchema`: the original key, the Zod type,
`.nullable()` then `.optional()` appended as flagged. -/
def schemaFieldEntry (gs : GenerateSettings) (kp : String × PropertyInfo) : String :=
  let zodBase := typeToZod kp.2.type gs
  let zodNullable := if kp.2.nullable then zodBase ++ ".nullable()" else zodBase
  let zodFull := if kp.2.optional then zodNullable ++ ".optional()" else zodNullable
  "  " ++ kp.1 ++ ": " ++ zodFull ++ ","

/-- Embedding of `generateObjectSchema` of `src/lib/generate/zod.ts`. -/
def generateObjectSchema (o : ObjectType) (gs : GenerateSettings) : String :=
  let fields := o.properties.map (schemaFieldEntry gs)
  let strictPart := if gs.strictObjects then ".strict()" else ""
  "export const " ++ toSchemaName o.typeName ++ " = z.object(\x7b\n" ++
    String.intercalate "\n" fields ++ "\n\x7d)" ++ strictPart ++ ";"

/-! ## Specification-side predicates

These predicates state the properties claimed by the specification; they are
not part of the embedded program. -/

/-- No later variant is structurally equal to an earlier one (the "pairwise
structurally distinct" clause of the union invariant). -/
def noDupVariants : List InferredType → Bool
  | [] => true
  | t :: ts => ts.all (fun u => !typesEqual t u) && noDupVariants ts

/-- The union invariant claimed by the specification: every `Union` node in
the tree has flat (no nested union) and pairwise structurally distinct
variants. -/
def UnionInvariant : InferredType → Bool
  | .primitive _ => true
  | .unknown => true
  | .dateString => true
  | .array e => UnionInvariant e
  | .union vs =>
    vs.attach.all (fun x => !isUnionType x.1 && UnionInvariant x.1) && noDupVariants vs
  | .object props _ => props.attach.all (fun x => UnionInvariant x.1.2.type)
termination_by t => sizeOf t
decreasing_by
  all_goals simp_wf
  all_goals first
    | omega
    | (have h := List.sizeOf_lt_of_mem x.2 ; omega)
    | (have h₁ := List.sizeOf_lt_of_mem x.2
       have h₂ := sizeOf_ptype_lt x.1
       omega)

/-- The union invariant for an `ObjectType` (every property type satisfies
it). -/
def objInvariant (o : ObjectType) : Bool :=
  o.properties.attach.all (fun x => UnionInvariant x.1.2.type)

/-- All `typeName`s of `Object` nodes in an IR tree, in depth-first order. -/
def collectTypeNames : InferredType → List String
  | .primitive _ => []
  | .unknown => []
  | .dateString => []
  | .array e => collectTypeNames e
  | .union vs => (vs.attach.map (fun x => collectTypeNames x.1)).flatten
  | .object props n =>
    n :: (props.attach.map (fun x => collectTypeNames x.1.2.type)).flatten
termination_by t => sizeOf t
decreasing_by
  all_goals simp_wf
  all_goals first
    | omega
    | (have h := List.sizeOf_lt_of_mem x.2 ; omega)
    | (have h₁ := List.sizeOf_lt_of_mem x.2
       have h₂ := sizeOf_ptype_lt x.1
       omega)

/-! ## Helper lemmas about `attach`-based definitions -/

/-- Replace an `attach`-ed `all` by a plain `all`. -/
theorem attach_all {α : Type} (l : List α) (f : α → Bool) :
    (l.attach.all fun x => f x.1) = l.all f := by
  rcases h : l.all f with _ | _
  · rw [Bool.eq_false_iff]
    intro hc
    rw [List.all_eq_true] at hc
    rw [← Bool.not_eq_true, List.all_eq_true] at h
    push_neg at h
    obtain ⟨a, ha, hf⟩ := h
    exact hf (hc ⟨a, ha⟩ (List.mem_attach _ _))
  · rw [List.all_eq_true] at h ⊢
    intro x _
    exact h x.1 x.2

/-- Unfolded form of `UnionInvariant` on a union node. -/
theorem unionInvariant_union (vs : List InferredType) :
    UnionInvariant (.union vs) =
      (vs.all (fun v => !isUnionType v && UnionInvariant v) && noDupVariants vs) := by
  rw [UnionInvariant, attach_all vs (fun v => !isUnionType v && UnionInvariant v)]

/-- Unfolded form of `UnionInvariant` on an object node. -/
theorem unionInvariant_object (props : List (String × PropertyInfo)) (n : String) :
    UnionInvariant (.object props n) =
      props.all (fun kp => UnionInvariant kp.2.type) := by
  rw [UnionInvariant, attach_all props (fun kp => UnionInvariant kp.2.type)]

/-! ## Lemmas about structural equality and kind tests -/

/-- Structurally equal types agree on being unions. -/
theorem typesEqual_kind_union {a b : InferredType} (h : typesEqual a b = true) :
    isUnionType a = isUnionType b := by
  cases a <;> cases b <;> simp_all [typesEqual, isUnionType]

/-- Structurally equal types agree on being `unknown`. -/
theorem typesEqual_kind_unknown {a b : InferredType} (h : typesEqual a b = true) :
    isUnknownType a = isUnknownType b := by
  cases a <;> cases b <;> simp_all [typesEqual, isUnknownType]

/-- Only the null primitive is structurally equal to the null primitive. -/
theorem typesEqual_null_iff (t : InferredType) :
    typesEqual t (.primitive .null) = true ↔ t = .primitive .null := by
  cases t with
  | primitive k => cases k <;> simp [typesEqual]
  | _ => simp [typesEqual]

/-! ## Lemmas about `flattenUnions`, `deduplicateTypes` and `mergeTypes` -/

/-- Flattening a list with no union element leaves it unchanged. -/
theorem flattenUnions_eq_self {ts : List InferredType}
    (h : ∀ t ∈ ts, isUnionType t = false) : flattenUnions ts = ts := by
  induction ts with
  | nil => simp [flattenUnions]
  | cons t ts ih =>
    have ht := h t (List.mem_cons_self _ _)
    have hts := ih (fun u hu => h u (List.mem_cons_of_mem _ hu))
    cases t <;> simp_all [flattenUnions, isUnionType]

/-- The accumulator loop adds every element of a pairwise-distinct suffix that
is also distinct from everything already kept. -/
theorem dedupAux_of_pairwise {ts : List InferredType} {acc : List InferredType}
    (hacc : ∀ t ∈ ts, ∀ r ∈ acc, typesEqual r t = false)
    (hts : List.Pairwise (fun a b => typesEqual a b = false) ts) :
    dedupAux acc ts = acc ++ ts := by
  induction ts generalizing acc with
  | nil => simp [dedupAux]
  | cons t ts ih =>
    have hany : acc.any (fun r => typesEqual r t) = false := by
      rw [← Bool.not_eq_true, List.any_eq_true]
      rintro ⟨r, hr, hrt⟩
      exact absurd hrt (by simp [hacc t (List.mem_cons_self _ _) r hr])
    rw [dedupAux, hany]
    simp only [Bool.false_eq_true, if_false]
    rw [ih]
    · simp
    · intro u hu r hr
      rcases List.mem_append.1 hr with hr₁ | hr₁
      · exact hacc u (List.mem_cons_of_mem _ hu) r hr₁
      · rw [List.mem_singleton.1 hr₁]
        exact (List.pairwise_cons.1 hts).1 u hu
    · exact (List.pairwise_cons.1 hts).2

/-- A pairwise-distinct list deduplicates to itself. -/
theorem deduplicateTypes_of_pairwise {ts : List InferredType}
    (hts : List.Pairwise (fun a b => typesEqual a b = false) ts) :
    deduplicateTypes ts = ts := by
  rw [deduplicateTypes, dedupAux_of_pairwise (by simp) hts]
  simp

/-- A list whose elements are all structurally equal to its head deduplicates
to the singleton head. -/
theorem deduplicateTypes_all_equal {t : InferredType} {rest : List InferredType}
    (h : ∀ u ∈ rest, typesEqual t u = true) :
    deduplicateTypes (t :: rest) = [t] := by
  rw [deduplicateTypes, dedupAux]
  simp only [List.any_nil, Bool.false_eq_true, if_false, List.nil_append]
  induction rest with
  | nil => rfl
  | cons u rest ih =>
    have hu := h u (List.mem_cons_self _ _)
    rw [dedupAux]
    simp [hu]
    exact ih (fun v hv => h v (List.mem_cons_of_mem _ hv))

/-- C3, counterexample to the claim as stated: the two inputs
`Union(string, number)` and `boolean` are structurally distinct and neither is
`Unknown`, yet `mergeTypes` returns a union of three variants, not a union of
the `k = 2` input types — a union input is flattened into its variants
first. -/
theorem spec_c3_counterexample :
    typesEqual (.union [.primitive .string, .primitive .number]) (.primitive .boolean) = false ∧
    isUnknownType (InferredType.union [.primitive .string, .primitive .number]) = false ∧
    isUnknownType (InferredType.primitive .boolean) = false ∧
    mergeTypes [.union [.primitive .string, .primitive .number], .primitive .boolean] =
      .union [.primitive .string, .primitive .number, .primitive .boolean] := by
  refine ⟨by simp [typesEqual], rfl, rfl, ?_⟩
  simp [mergeTypes, flattenUnions, deduplicateTypes, dedupAux, typesEqual, isUnknownType]

/-- C3 (amended): for `k ≥ 2` pairwise structurally distinct inputs none of
which is `Unknown` *or itself a `Union`*, `mergeTypes` returns a `Union` of
exactly those `k` inputs in first-seen (input) order; for `k ≥ 1` pairwise
structurally equal non-`Union` inputs it returns the first input unwrapped,
never a singleton `Union`. -/
theorem spec_c3_amended :
    (∀ ts : List InferredType, 2 ≤ ts.length →
       List.Pairwise (fun a b => typesEqual a b = false) ts →
       (∀ t ∈ ts, isUnionType t = false ∧ isUnknownType t = false) →
       mergeTypes ts = .union ts) ∧
    (∀ (t : InferredType) (rest : List InferredType), isUnionType t = false →
       (∀ u ∈ rest, typesEqual t u = true) →
       mergeTypes (t :: rest) = t) := by
  constructor
  · intro ts hlen hpw hkinds
    cases ts with
    | nil => simp at hlen
    | cons a ts' =>
      cases ts' with
      | nil => simp at hlen
      | cons b rest =>
        have hflat : flattenUnions (a :: b :: rest) = a :: b :: rest :=
          flattenUnions_eq_self (fun t ht => (hkinds t ht).1)
        have hdedup : deduplicateTypes (a :: b :: rest) = a :: b :: rest :=
          deduplicateTypes_of_pairwise hpw
        have hfilter : (a :: b :: rest).filter (fun t => !isUnknownType t) = a :: b :: rest :=
          List.filter_eq_self.2 (fun t ht => by simp [(hkinds t ht).2])
        simp [mergeTypes, hflat, hdedup, hfilter]
  · intro t rest hnu hrest
    have hflat : flattenUnions (t :: rest) = t :: rest := by
      refine flattenUnions_eq_self ?_
      intro u hu
      rcases List.mem_cons.1 hu with h | h
      · exact h ▸ hnu
      · exact (typesEqual_kind_union (hrest u h)).symm.trans hnu
    have hdedup : deduplicateTypes (t :: rest) = [t] := deduplicateTypes_all_equal hrest
    cases hkt : isUnknownType t with
    | false => simp [mergeTypes, hflat, hdedup, hkt]
    | true => simp [mergeTypes, hflat, hdedup, hkt]

/-- Witness for the amended C3 at concrete inputs: two distinct primitives
merge to their two-variant union; two equal booleans merge to the single
boolean. -/
theorem spec_c3_witness :
    mergeTypes [.primitive .string, .primitive .number] =
      .union [.primitive .string, .primitive .number] ∧
    mergeTypes [.primitive .boolean, .primitive .boolean] = .primitive .boolean := by
  constructor
  · refine spec_c3_amended.1 [.primitive .string, .primitive .number] (by simp) ?_ ?_
    · simp [List.pairwise_cons, typesEqual]
    · intro t ht
      rcases List.mem_cons.1 ht with h | h
      · subst h; exact ⟨rfl, rfl⟩
      · rcases List.mem_singleton.1 h with rfl; exact ⟨rfl, rfl⟩
  · refine spec_c3_amended.2 (.primitive .boolean) [.primitive .boolean] rfl ?_
    intro u hu
    rcases List.mem_singleton.1 hu with rfl
    simp [typesEqual]

/-! ## Lemmas about key collection and merged-property lookup -/

/-- A lookup succeeds exactly when the key occurs in the key list. -/
theorem assocLookup_isSome {α : Type} (k : String) (l : List (String × α)) :
    (assocLookup k l).isSome ↔ k ∈ l.map Prod.fst := by
  induction l with
  | nil => simp [assocLookup]
  | cons kv rest ih =>
    obtain ⟨k₁, v₁⟩ := kv
    by_cases hk : k₁ = k
    · subst hk; simp [assocLookup]
    · simp [assocLookup, hk, ih, Ne.symm hk]

/-- Lookup in a list built by mapping a function over a key list. -/
theorem assocLookup_map_keys {β : Type} (f : String → β) (l : List String) (k : String) :
    assocLookup k (l.map (fun k₁ => (k₁, f k₁))) = if k ∈ l then some (f k) else none := by
  induction l with
  | nil => simp [assocLookup]
  | cons a l ih =>
    by_cases hak : a = k
    · subst hak; simp [assocLookup]
    · simp [assocLookup, hak, ih, Ne.symm hak]

/-- Membership in one `addKey` step. -/
theorem mem_addKey (acc : List String) (s k : String) :
    k ∈ addKey acc s ↔ k ∈ acc ∨ k = s := by
  rw [addKey]
  by_cases hs : s ∈ acc
  · rw [if_pos (List.elem_eq_true_of_mem hs)]
    constructor
    · exact .inl
    · rintro (h | rfl)
      · exact h
      · exact hs
  · rw [if_neg (fun hc => hs (List.mem_of_elem_eq_true hc))]
    simp [List.mem_append]

/-- Membership under the `addKey` fold. -/
theorem mem_foldl_addKey (l : List String) (acc : List String) (k : String) :
    k ∈ l.foldl addKey acc ↔ k ∈ acc ∨ k ∈ l := by
  induction l generalizing acc with
  | nil => simp
  | cons s l ih =>
    rw [List.foldl_cons, ih, mem_addKey]
    constructor
    · rintro ((h | rfl) | h)
      · exact .inl h
      · exact .inr (List.mem_cons_self _ _)
      · exact .inr (List.mem_cons_of_mem _ h)
    · rintro (h | h)
      · exact .inl (.inl h)
      · rcases List.mem_cons.1 h with rfl | h₁
        · exact .inl (.inr rfl)
        · exact .inr h₁

/-- A key is collected by `allKeys` exactly when some input object has it. -/
theorem mem_allKeys (objects : List ObjectType) (k : String) :
    k ∈ allKeys objects ↔ ∃ o ∈ objects, k ∈ keysOf o.properties := by
  rw [allKeys, mem_foldl_addKey]
  simp [List.mem_flatten]

/-- The `optional` flag computed by the merging loop is exactly the
`presentCount < totalObjects` test, in every branch of the null strip. -/
theorem mergeProp_optional (objects : List ObjectType) (k : String) :
    (mergeProp objects k).optional = decide (presentCount objects k < objects.length) := by
  rw [mergeProp]
  rcases mergeTypes (typesForKey objects k) with _ | _ | _ | vs | _ | _ <;>
    simp only [PropertyInfo.optional]
  by_cases hn : vs.any isNullPrim
  · simp only [hn, if_true]
    rcases hf : vs.filter (fun v => !isNullPrim v) with _ | ⟨t, _ | ⟨u, rest⟩⟩ <;>
      simp [PropertyInfo.optional]
  · simp [hn, PropertyInfo.optional]

/-- Counting presence over a singleton object list. -/
theorem presentCount_singleton (o : ObjectType) (k : String) :
    presentCount [o] k = if (assocLookup k o.properties).isSome then 1 else 0 := by
  simp [presentCount, List.countP_cons]

/-- C2, counterexample to the claim as stated: for `N = 1` the single input
object is returned as-is (only renamed), so a pre-set `optional = true` flag
survives even though the key is present in 1 of 1 inputs. -/
theorem spec_c2_counterexample :
    (assocLookup "a"
        (mergeObjectTypes [⟨[("a", .mk (.primitive .string) true false)], "X"⟩] "Y").properties).map
        PropertyInfo.optional = some true ∧
    presentCount [(⟨[("a", .mk (.primitive .string) true false)], "X"⟩ : ObjectType)] "a" = 1 := by
  exact ⟨rfl, rfl⟩

/-- C2 (amended): provided every input object's own properties carry
`optional = false` — true of every object the inference engine produces — the
merged object has a key exactly when some input has it, and that key is
`optional` exactly when it is present in fewer than `N` of the `N ≥ 1` inputs.
(Without the proviso, a single-object input is returned as-is and may keep a
pre-set `optional = true`.) -/
theorem spec_c2_amended :
    ∀ (objects : List ObjectType) (name : String), objects ≠ [] →
      (∀ o ∈ objects, ∀ kp ∈ o.properties, kp.2.optional = false) →
      ∀ k : String,
        ((assocLookup k (mergeObjectTypes objects name).properties).isSome ↔
          ∃ o ∈ objects, k ∈ keysOf o.properties) ∧
        (∀ p, assocLookup k (mergeObjectTypes objects name).properties = some p →
          (p.optional = true ↔ presentCount objects k < objects.length)) := by
  intro objects name hne hflags k
  rcases objects with _ | ⟨o, rest'⟩
  · exact absurd rfl hne
  rcases rest' with _ | ⟨b, rest⟩
  · rw [mergeObjectTypes]
    constructor
    · rw [assocLookup_isSome]
      constructor
      · intro h; exact ⟨o, List.mem_singleton_self _, h⟩
      · rintro ⟨o₁, ho₁, hk⟩
        rcases List.mem_singleton.1 ho₁ with rfl
        exact hk
    · intro p hp
      have hmem := assocLookup_mem hp
      have hopt := hflags o (List.mem_singleton_self _) (k, p) hmem
      have hsome : (assocLookup k o.properties).isSome := by rw [hp]; rfl
      rw [presentCount_singleton, if_pos hsome]
      simp [hopt]
  · rw [mergeObjectTypes]
    rw [assocLookup_map_keys (fun k₁ => mergeProp (o :: b :: rest) k₁) (allKeys (o :: b :: rest)) k]
    constructor
    · by_cases hk : k ∈ allKeys (o :: b :: rest)
      · simp only [hk, if_true, Option.isSome_some, true_iff]
        exact (mem_allKeys _ _).1 hk
      · rw [if_neg hk]
        constructor
        · intro hc; exact absurd hc (by simp)
        · intro hc; exact absurd ((mem_allKeys _ _).2 hc) hk
    · intro p hp
      by_cases hk : k ∈ allKeys (o :: b :: rest)
      · rw [if_pos hk] at hp
        have hpe : p = mergeProp (o :: b :: rest) k := by
          injection hp with h; exact h.symm
        subst hpe
        rw [mergeProp_optional]
        simp
      · rw [if_neg hk] at hp
        exact absurd hp (by simp)
    all_goals simp

/-- Witness for the amended C2: two inputs, the key `a` present in only the
first, the merged flag is `optional = true`. -/
theorem spec_c2_witness :
    ∃ p, assocLookup "a"
        (mergeObjectTypes [⟨[("a", .mk (.primitive .string) false false)], "A"⟩, ⟨[], "B"⟩]
          "M").properties = some p ∧
      p.optional = true := by
  have h := spec_c2_amended
    [⟨[("a", .mk (.primitive .string) false false)], "A"⟩, ⟨[], "B"⟩] "M"
    (by simp)
    (by
      intro o ho kp hkp
      rcases List.mem_cons.1 ho with rfl | ho₁
      · rcases List.mem_singleton.1 hkp with rfl; rfl
      · rcases List.mem_singleton.1 ho₁ with rfl; simp at hkp)
    "a"
  have hs : (assocLookup "a"
      (mergeObjectTypes [⟨[("a", .mk (.primitive .string) false false)], "A"⟩, ⟨[], "B"⟩]
        "M").properties).isSome := by
    refine h.1.2 ⟨⟨[("a", .mk (.primitive .string) false false)], "A"⟩, ?_, ?_⟩
    · exact List.mem_cons_self _ _
    · simp [keysOf]
  obtain ⟨p, hp⟩ := Option.isSome_iff_exists.1 hs
  refine ⟨p, hp, (h.2 p hp).2 (by decide)⟩

/-- C5: during object merging (which loops over keys only when `N ≥ 2`), a key
whose union-merged occurrence type is a `Union` containing a `Primitive(null)`
variant is emitted with `nullable = true` and with that variant stripped:
`Primitive(null)` when nothing remains, the single remaining type when one
remains, and the `Union` of the remainder otherwise; `optional` still tracks
`presentCount < N`. -/
theorem spec_c5 :
    ∀ (objects : List ObjectType) (name k : String) (vs : List InferredType),
      2 ≤ objects.length →
      mergeTypes (typesForKey objects k) = .union vs →
      (.primitive .null) ∈ vs →
      ∃ p, assocLookup k (mergeObjectTypes objects name).properties = some p ∧
        p.nullable = true ∧
        p.optional = decide (presentCount objects k < objects.length) ∧
        p.type = (match vs.filter (fun v => !isNullPrim v) with
                  | [] => .primitive .null
                  | [t] => t
                  | nn => .union nn) := by
  intro objects name k vs hlen hmerge hnull
  have htk : typesForKey objects k ≠ [] := by
    intro hc
    rw [hc] at hmerge
    simp [mergeTypes] at hmerge
  have hkmem : k ∈ allKeys objects := by
    rcases List.exists_mem_of_ne_nil _ htk with ⟨t, ht⟩
    rw [typesForKey] at ht
    rcases List.mem_filterMap.1 ht with ⟨o, ho, hlk⟩
    rcases Option.map_eq_some'.1 hlk with ⟨p₀, hp₀, _⟩
    refine (mem_allKeys _ _).2 ⟨o, ho, ?_⟩
    rw [keysOf, ← assocLookup_isSome, hp₀]
    rfl
  rcases objects with _ | ⟨a, _ | ⟨b, rest⟩⟩
  · simp at hlen
  · simp at hlen
  refine ⟨mergeProp (a :: b :: rest) k, ?_, ?_⟩
  · rw [mergeObjectTypes,
      assocLookup_map_keys (fun k₁ => mergeProp (a :: b :: rest) k₁) (allKeys (a :: b :: rest)) k,
      if_pos hkmem]
    all_goals simp
  · have hany : vs.any isNullPrim = true :=
      List.any_eq_true.2 ⟨.primitive .null, hnull, rfl⟩
    rw [mergeProp, hmerge]
    simp only [hany, if_true]
    rcases hf : vs.filter (fun v => !isNullPrim v) with _ | ⟨t, _ | ⟨u, more⟩⟩ <;>
      simp [PropertyInfo.nullable, PropertyInfo.optional, PropertyInfo.type]

/-- Witness for C5: merging a null-typed and a string-typed occurrence of key
`a` across two objects yields the stripped single type `string` with
`nullable = true`. -/
theorem spec_c5_witness :
    ∃ p, assocLookup "a"
        (mergeObjectTypes [⟨[("a", .mk (.primitive .null) false false)], "A"⟩,
          ⟨[("a", .mk (.primitive .string) false false)], "B"⟩] "M").properties = some p ∧
      p.nullable = true ∧
      p.optional = decide (presentCount [⟨[("a", .mk (.primitive .null) false false)], "A"⟩,
        ⟨[("a", .mk (.primitive .string) false false)], "B"⟩] "a" < 2) ∧
      p.type = .primitive .string := by
  have h := spec_c5
    [⟨[("a", .mk (.primitive .null) false false)], "A"⟩,
      ⟨[("a", .mk (.primitive .string) false false)], "B"⟩] "M" "a"
    [.primitive .null, .primitive .string]
    (by simp)
    (by simp [typesForKey, assocLookup, PropertyInfo.type, mergeTypes, flattenUnions,
      deduplicateTypes, dedupAux, typesEqual, isUnknownType])
    (List.mem_cons_self _ _)
  simpa [isNullPrim] using h

/-! ## Decimal representation of naturals

`NameGenerator.generate` renders the occurrence count with JS number-to-string
interpolation, embedded as `Nat.repr`.  The injectivity of `Nat.repr` (needed
for the no-collision statement) is established through the digit-list function
`decChars` and its evaluation map `decVal`. -/

/-- Decimal digit characters of a natural number, most significant first. -/
def decChars (n : Nat) : List Char :=
  if n < 10 then [Nat.digitChar n]
  else decChars (n / 10) ++ [Nat.digitChar (n % 10)]
decreasing_by exact Nat.div_lt_self (by omega) (by omega)

/-- `Nat.toDigitsCore` agrees with `decChars` when given enough fuel. -/
theorem toDigitsCore_eq_decChars :
    ∀ (f n : Nat) (acc : List Char), n < f →
      Nat.toDigitsCore 10 f n acc = decChars n ++ acc := by
  intro f
  induction f with
  | zero => intro n acc h; omega
  | succ f ih =>
    intro n acc h
    rw [Nat.toDigitsCore]
    by_cases h10 : n / 10 = 0
    · have hn : n < 10 := by omega
      have hmod : n % 10 = n := Nat.mod_eq_of_lt hn
      simp only [h10, if_true, hmod]
      rw [decChars, if_pos hn]
      rfl
    · have hge : 10 ≤ n := by
        by_contra hc
        exact h10 (Nat.div_eq_of_lt (by omega))
      have hdl : n / 10 < n := Nat.div_lt_self (by omega) (by omega)
      have hlt : n / 10 < f := by omega
      simp only [h10, if_false]
      rw [ih (n / 10) (Nat.digitChar (n % 10) :: acc) hlt]
      conv_rhs => rw [decChars, if_neg (show ¬ n < 10 by omega)]
      simp

/-- `Nat.repr` is rendering by `decChars`. -/
theorem repr_eq_decChars (n : Nat) : Nat.repr n = (decChars n).asString := by
  rw [Nat.repr, Nat.toDigits, toDigitsCore_eq_decChars (n + 1) n [] (Nat.lt_succ_self n)]
  simp

/-- Decimal evaluation of a digit character list. -/
def decVal (l : List Char) : Nat :=
  l.foldl (fun acc c => acc * 10 + (c.toNat - 48)) 0

/-- Value of a digit character produced by `Nat.digitChar`. -/
theorem digitChar_val {n : Nat} (h : n < 10) : (Nat.digitChar n).toNat - 48 = n := by
  interval_cases n <;> rfl

/-- `decVal` inverts `decChars`. -/
theorem decVal_decChars (n : Nat) : decVal (decChars n) = n := by
  induction n using Nat.strong_induction_on with
  | _ n ih =>
    rw [decChars]
    by_cases h : n < 10
    · rw [if_pos h]
      simp [decVal, digitChar_val h]
    · rw [if_neg h]
      have hdiv : n / 10 < n := Nat.div_lt_self (by omega) (by omega)
      have hv : decVal (decChars (n / 10) ++ [Nat.digitChar (n % 10)]) =
          decVal (decChars (n / 10)) * 10 + ((Nat.digitChar (n % 10)).toNat - 48) := by
        simp [decVal, List.foldl_append]
      rw [hv, ih (n / 10) hdiv, digitChar_val (Nat.mod_lt _ (by omega))]
      omega

/-- `decChars` is injective. -/
theorem decChars_injective {m n : Nat} (h : decChars m = decChars n) : m = n := by
  have hm := decVal_decChars m
  rw [h, decVal_decChars] at hm
  omega

/-- `decChars` is never empty. -/
theorem decChars_ne_nil (n : Nat) : decChars n ≠ [] := by
  rw [decChars]
  by_cases h : n < 10 <;> simp [h]

/-- `Nat.repr` is injective. -/
theorem natRepr_injective {m n : Nat} (h : Nat.repr m = Nat.repr n) : m = n := by
  rw [repr_eq_decChars, repr_eq_decChars] at h
  refine decChars_injective ?_
  have hd := congrArg String.data h
  simpa [List.asString] using hd

/-- `Nat.repr` is nonempty. -/
theorem natRepr_ne_empty (n : Nat) : Nat.repr n ≠ "" := by
  rw [repr_eq_decChars]
  intro hc
  have hd := congrArg String.data hc
  simp [List.asString] at hd
  exact decChars_ne_nil n hd

/-! ## The name-allocator run formula -/

/-- The count the allocator has stored for a candidate name (0 when absent,
matching `usedNames.get(name) ?? 0`). -/
def getCount (used : List (String × Nat)) (B : String) : Nat :=
  (assocLookup B used).getD 0

/-- Effect of `map.set` on the stored counts. -/
theorem getCount_assocSet (used : List (String × Nat)) (C : String) (v : Nat) (B : String) :
    getCount (assocSet C v used) B = if C = B then v else getCount used B := by
  induction used with
  | nil => by_cases h : C = B <;> simp [assocSet, getCount, assocLookup, h]
  | cons kv rest ih =>
    obtain ⟨k₁, v₁⟩ := kv
    by_cases hk : k₁ = C
    · subst hk
      by_cases hb : k₁ = B <;> simp [assocSet, getCount, assocLookup, hb]
    · by_cases hb : k₁ = B
      · subst hb
        have hcb : ¬ C = k₁ := fun hc => hk hc.symm
        simp [assocSet, getCount, assocLookup, hk, hcb]
      · simp only [assocSet, getCount, assocLookup, hk, hb, if_false]
        simpa [getCount] using ih

/-- Number of earlier calls that produced a given candidate base name. -/
def basesCount (hist : List (List String)) (B : String) : Nat :=
  (hist.map candidateOf).count B

/-- A run produces one name per call. -/
theorem runGenAux_length (used : List (String × Nat)) (calls : List (List String)) :
    (runGenAux used calls).length = calls.length := by
  induction calls generalizing used with
  | nil => rfl
  | cons c cs ih => simp [runGenAux, ih]

/-- A fresh run produces one name per call. -/
theorem runGen_length (calls : List (List String)) :
    (runGen calls).length = calls.length :=
  runGenAux_length [] calls

/-- Indexing a cons cell at position zero yields the head. -/
theorem list_get_zero {α : Type} (a : α) (l : List α) (h : 0 < (a :: l).length) :
    (a :: l).get ⟨0, h⟩ = a := rfl

/-- Indexing a cons cell at a successor position indexes the tail. -/
theorem list_get_succ {α : Type} (a : α) (l : List α) (j : Nat) (h : j + 1 < (a :: l).length)
    (h' : j < l.length) : (a :: l).get ⟨j + 1, h⟩ = l.get ⟨j, h'⟩ := rfl

/-- Closed form of the allocator history: against a `usedNames` map
that stores exactly the candidate counts of the history `hist`, the `i`-th
result is the candidate name bare if no earlier call (history included)
produced the same candidate, and the candidate followed by the decimal
occurrence count otherwise. -/
theorem runGenAux_get :
    ∀ (calls : List (List String)) (used : List (String × Nat)) (hist : List (List String)),
      (∀ B, getCount used B = basesCount hist B) →
      ∀ (i : Nat) (hi : i < calls.length),
        (runGenAux used calls).get ⟨i, by rw [runGenAux_length]; exact hi⟩ =
          (if basesCount (hist ++ calls.take i) (candidateOf (calls.get ⟨i, hi⟩)) = 0 then
            candidateOf (calls.get ⟨i, hi⟩)
          else
            candidateOf (calls.get ⟨i, hi⟩) ++
              Nat.repr (basesCount (hist ++ calls.take i)
                (candidateOf (calls.get ⟨i, hi⟩)) + 1)) := by
  intro calls
  induction calls with
  | nil => intro used hist hinv i hi; simp at hi
  | cons c cs ih =>
    intro used hist hinv i hi
    cases i with
    | zero =>
      show (generate used c).1 = _
      rw [generate]
      simp only [List.take_zero, List.append_nil, list_get_zero]
      rw [show (assocLookup (candidateOf c) used).getD 0 = getCount used (candidateOf c) from rfl,
        hinv (candidateOf c)]
    | succ j =>
      have hj : j < cs.length := by simpa using hi
      have hinv' : ∀ B, getCount (generate used c).2 B = basesCount (hist ++ [c]) B := by
        intro B
        rw [generate]
        simp only
        rw [getCount_assocSet]
        rw [show (assocLookup (candidateOf c) used).getD 0 = getCount used (candidateOf c) from
          rfl]
        rw [basesCount, List.map_append, List.count_append]
        by_cases hb : candidateOf c = B
        · rw [if_pos hb, hinv, hb, basesCount]
          simp [List.count_cons, hb]
        · rw [if_neg hb, hinv, basesCount]
          simp [List.count_cons, hb]
      have step := ih (generate used c).2 (hist ++ [c]) hinv' j hj
      have hgl : (runGenAux used (c :: cs)).get ⟨j + 1, by rw [runGenAux_length]; exact hi⟩ =
          (runGenAux (generate used c).2 cs).get ⟨j, by rw [runGenAux_length]; exact hj⟩ :=
        list_get_succ _ _ _ _ _
      have hcg : (c :: cs).get ⟨j + 1, hi⟩ = cs.get ⟨j, hj⟩ := list_get_succ _ _ _ _ _
      rw [hgl, step, hcg, List.take_succ_cons]
      rw [show hist ++ [c] ++ cs.take j = hist ++ (c :: cs.take j) by simp]

/-- Append to a string is cancellative on the left. -/
theorem string_append_left_cancel {B s t : String} (h : B ++ s = B ++ t) : s = t := by
  have hd := congrArg String.data h
  rw [String.data_append, String.data_append] at hd
  exact String.ext (List.append_cancel_left hd)

/-- A string never equals itself extended by a decimal number. -/
theorem string_ne_append_repr (B : String) (n : Nat) : B ≠ B ++ Nat.repr n := by
  intro hc
  have hd := congrArg String.data hc
  rw [String.data_append] at hd
  have he : (Nat.repr n).data = [] := List.self_eq_append_right.mp hd
  exact natRepr_ne_empty n (String.ext (by simp [he]))

/-- C1 (amended): in one run of a fresh `NameGenerator`, the `i`-th call's
result is its candidate base `B` bare when it is the first call producing `B`,
and `B` followed by the decimal occurrence number (2 for the second, 3 for the
third, ...) otherwise; consequently two calls with the same candidate base
never return the same string.  (Two calls with *different* bases can still
collide — see the counterexample — so the run is not globally duplicate-free
and `Object` type names need not be unique.) -/
theorem spec_c1_amended :
    ∀ (calls : List (List String)) (i j : Nat) (hi : i < calls.length) (hj : j < calls.length),
      ((runGen calls).get ⟨i, by rw [runGen_length]; exact hi⟩ =
        (if ((calls.take i).map candidateOf).count (candidateOf (calls.get ⟨i, hi⟩)) = 0 then
          candidateOf (calls.get ⟨i, hi⟩)
        else
          candidateOf (calls.get ⟨i, hi⟩) ++
            Nat.repr (((calls.take i).map candidateOf).count
              (candidateOf (calls.get ⟨i, hi⟩)) + 1))) ∧
      (i < j → candidateOf (calls.get ⟨i, hi⟩) = candidateOf (calls.get ⟨j, hj⟩) →
        (runGen calls).get ⟨i, by rw [runGen_length]; exact hi⟩ ≠
          (runGen calls).get ⟨j, by rw [runGen_length]; exact hj⟩) := by
  have hform : ∀ (calls : List (List String)) (i : Nat) (hi : i < calls.length),
      (runGen calls).get ⟨i, by rw [runGen_length]; exact hi⟩ =
        (if ((calls.take i).map candidateOf).count (candidateOf (calls.get ⟨i, hi⟩)) = 0 then
          candidateOf (calls.get ⟨i, hi⟩)
        else
          candidateOf (calls.get ⟨i, hi⟩) ++
            Nat.repr (((calls.take i).map candidateOf).count
              (candidateOf (calls.get ⟨i, hi⟩)) + 1)) := by
    intro calls i hi
    have h := runGenAux_get calls [] [] (fun B => rfl) i hi
    simpa [basesCount] using h
  intro calls i j hi hj
  refine ⟨hform calls i hi, ?_⟩
  intro hij hbase
  have hcount : ((calls.take i).map candidateOf).count (candidateOf (calls.get ⟨i, hi⟩)) <
      ((calls.take j).map candidateOf).count (candidateOf (calls.get ⟨i, hi⟩)) := by
    have hsplit : calls.take j = calls.take i ++ (calls.drop i).take (j - i) := by
      rw [← List.take_add]
      congr 1
      omega
    have hdrop : calls.drop i = calls.get ⟨i, hi⟩ :: calls.drop (i + 1) :=
      List.drop_eq_getElem_cons hi
    have hji : j - i = (j - i - 1) + 1 := by omega
    rw [hsplit, hdrop, hji, List.take_succ_cons, List.map_append, List.count_append]
    have hone : 1 ≤ ((calls.get ⟨i, hi⟩ :: (calls.drop (i + 1)).take (j - i - 1)).map
        candidateOf).count (candidateOf (calls.get ⟨i, hi⟩)) := by
      simp only [List.map_cons, List.count_cons]
      simp
    omega
  rw [hform calls i hi, hform calls j hj, ← hbase]
  by_cases hz : ((calls.take i).map candidateOf).count (candidateOf (calls.get ⟨i, hi⟩)) = 0
  · rw [if_pos hz]
    have hz' : ¬ ((calls.take j).map candidateOf).count
        (candidateOf (calls.get ⟨i, hi⟩)) = 0 := by
      omega
    rw [if_neg hz']
    exact string_ne_append_repr _ _
  · rw [if_neg hz]
    have hz' : ¬ ((calls.take j).map candidateOf).count
        (candidateOf (calls.get ⟨i, hi⟩)) = 0 := by
      omega
    rw [if_neg hz']
    intro hc
    have := natRepr_injective (string_append_left_cancel hc)
    omega

/-- Witness for the amended C1 at a concrete run: three calls with bases
`Item`, `Item`, `Item` give `Item`, `Item2`, `Item3`, and the second and third
results differ. -/
theorem spec_c1_witness :
    (runGen [["item"], ["item"], ["item"]]).get ⟨1, by rw [runGen_length]; decide⟩ = "Item2" ∧
    (runGen [["item"], ["item"], ["item"]]).get ⟨2, by rw [runGen_length]; decide⟩ = "Item3" ∧
    (runGen [["item"], ["item"], ["item"]]).get ⟨1, by rw [runGen_length]; decide⟩ ≠
      (runGen [["item"], ["item"], ["item"]]).get ⟨2, by rw [runGen_length]; decide⟩ := by
  have h₁ := (spec_c1_amended [["item"], ["item"], ["item"]] 1 2 (by decide) (by decide)).1
  have h₂ := (spec_c1_amended [["item"], ["item"], ["item"]] 2 1 (by decide) (by decide)).1
  have h₃ := (spec_c1_amended [["item"], ["item"], ["item"]] 1 2 (by decide) (by decide)).2
    (by decide) (by decide)
  refine ⟨?_, ?_, h₃⟩
  · rw [h₁]; decide
  · rw [h₂]; decide

/-- Plain (attach-free) unfolding of `collectTypeNames` on an object node. -/
theorem collectTypeNames_object (props : List (String × PropertyInfo)) (n : String) :
    collectTypeNames (.object props n) =
      n :: (props.map (fun kp => collectTypeNames kp.2.type)).flatten := by
  rw [collectTypeNames, List.attach_map_val props (fun kp => collectTypeNames kp.2.type)]

/-- C1, counterexample to the claim as stated: the allocator returns the same
string twice in one run as soon as a later call's base collides with an
already-suffixed name (bases `Item`, `Item`, `Item2` give `Item`, `Item2`,
`Item2`), and an inferred tree can carry two `Object` nodes with the same
`typeName` (a property named `root` claims the name `Root` before the root
object is renamed to `Root`). -/
theorem spec_c1_counterexample :
    runGen [["item"], ["item"], ["item2"]] = ["Item", "Item2", "Item2"] ∧
    ¬ (runGen [["item"], ["item"], ["item2"]]).Nodup ∧
    collectTypeNames (inferType (.obj [("root", .obj [("x", .num 1)])]) ⟨"Root", false⟩).type =
      ["Root", "Root"] ∧
    ¬ (["Root", "Root"] : List String).Nodup := by
  refine ⟨by decide, by decide, ?_, by decide⟩
  have htype :
      (inferType (.obj [("root", .obj [("x", .num 1)])]) ⟨"Root", false⟩).type =
        .object [("root", .mk (.object [("x", .mk (.primitive .number) false false)] "Root")
          false false)] "Root" := by
    simp +decide [inferType, isRootContainer, infer, inferObject, inferProps, genName, generate,
      candidateOf, toPascalCase, camelBoundary, splitSegsAux, capitalizeWord, isSegSep,
      assocLookup, assocSet, pushDiag, isNullPrim, namePath, String.join, ObjectType.toType,
      startsWithBracket]
  rw [htype]
  rw [collectTypeNames_object]
  simp [collectTypeNames_object, collectTypeNames, PropertyInfo.type]

/-! ## Structural equality is an equivalence

The object case of `typesEqual` is first characterized in terms of sorted key
lists and lookups; reflexivity, symmetry and transitivity then follow by
strong induction on sizes. -/

/-- Constructor-level equation for the array case. -/
theorem typesEqual_array_eq (a b : InferredType) :
    typesEqual (.array a) (.array b) = typesEqual a b := by
  simp [typesEqual]

/-- Constructor-level equation for the union case. -/
theorem typesEqual_union_eq (as bs : List InferredType) :
    typesEqual (.union as) (.union bs) =
      (as.length == bs.length && unionVariantsEqual as bs) := by
  simp [typesEqual]

/-- Constructor-level equation for the object case. -/
theorem typesEqual_object_eq (aP bP : List (String × PropertyInfo)) (an bn : String) :
    typesEqual (.object aP an) (.object bP bn) =
      ((sortedKeys aP).length == (sortedKeys bP).length &&
        objKeysEqual aP bP ((sortedKeys aP).zip (sortedKeys bP))) := by
  simp [typesEqual]

/-- Members of the self-zip are diagonal pairs. -/
theorem zip_self_mem {α : Type} {l : List α} {p : α × α} (h : p ∈ l.zip l) :
    p.1 = p.2 ∧ p.1 ∈ l := by
  induction l with
  | nil => simp at h
  | cons a l ih =>
    rw [List.zip_cons_cons] at h
    rcases List.mem_cons.1 h with rfl | h₁
    · exact ⟨rfl, List.mem_cons_self _ _⟩
    · exact ⟨(ih h₁).1, List.mem_cons_of_mem _ (ih h₁).2⟩

/-- Every element appears on the diagonal of its self-zip. -/
theorem mem_zip_self {α : Type} {l : List α} {a : α} (h : a ∈ l) : (a, a) ∈ l.zip l := by
  induction l with
  | nil => simp at h
  | cons b l ih =>
    rw [List.zip_cons_cons]
    rcases List.mem_cons.1 h with rfl | h₁
    · exact List.mem_cons_self _ _
    · exact List.mem_cons_of_mem _ (ih h₁)

/-- Two lists of the same length whose zip is pointwise equal are equal. -/
theorem zip_fst_eq_of_forall {l₁ l₂ : List String} (hlen : l₁.length = l₂.length)
    (h : ∀ p ∈ l₁.zip l₂, p.1 = p.2) : l₁ = l₂ := by
  induction l₁ generalizing l₂ with
  | nil => cases l₂ with
    | nil => rfl
    | cons b l₂ => simp at hlen
  | cons a l₁ ih =>
    cases l₂ with
    | nil => simp at hlen
    | cons b l₂ =>
      have hab := h (a, b) (by rw [List.zip_cons_cons]; exact List.mem_cons_self _ _)
      have htl := ih (by simpa using hlen)
        (fun p hp => h p (by rw [List.zip_cons_cons]; exact List.mem_cons_of_mem _ hp))
      have hab' : a = b := by simpa using hab
      simp [hab', htl]

/-- Pointwise characterization of `unionVariantsEqual` (the zip truncates, as
the length guard of the union case makes the tails irrelevant). -/
theorem unionVariantsEqual_iff (as : List InferredType) :
    ∀ bs, unionVariantsEqual as bs = true ↔ ∀ p ∈ as.zip bs, typesEqual p.1 p.2 = true := by
  induction as with
  | nil => intro bs; simp [unionVariantsEqual]
  | cons a as ih =>
    intro bs
    cases bs with
    | nil => simp [unionVariantsEqual]
    | cons b bs =>
      rw [List.zip_cons_cons]
      have he : unionVariantsEqual (a :: as) (b :: bs) =
          (typesEqual a b && unionVariantsEqual as bs) := by
        simp [unionVariantsEqual]
      rw [he, Bool.and_eq_true, ih bs]
      constructor
      · rintro ⟨h₁, h₂⟩ p hp
        rcases List.mem_cons.1 hp with rfl | hp₁
        · exact h₁
        · exact h₂ p hp₁
      · intro h
        exact ⟨h (a, b) (List.mem_cons_self _ _), fun p hp => h p (List.mem_cons_of_mem _ hp)⟩

/-- Pointwise characterization of `objKeysEqual`. -/
theorem objKeysEqual_iff (aP bP : List (String × PropertyInfo)) :
    ∀ pairs : List (String × String), objKeysEqual aP bP pairs = true ↔
      ∀ q ∈ pairs, q.1 = q.2 ∧ ∃ pa pb, assocLookup q.1 aP = some pa ∧
        assocLookup q.1 bP = some pb ∧ typesEqual pa.type pb.type = true := by
  intro pairs
  induction pairs with
  | nil => simp [objKeysEqual]
  | cons q rest ih =>
    obtain ⟨k₁, k₂⟩ := q
    have he : objKeysEqual aP bP ((k₁, k₂) :: rest) =
        (k₁ == k₂ &&
          (match h₁ : assocLookup k₁ aP, h₂ : assocLookup k₁ bP with
           | some pa, some pb => typesEqual pa.type pb.type
           | _, _ => false) &&
          objKeysEqual aP bP rest) := by
      simp [objKeysEqual]
    rw [he]
    simp only [Bool.and_eq_true, beq_iff_eq, ih]
    constructor
    · rintro ⟨⟨hk, hm⟩, hrest⟩
      intro q hq
      rcases List.mem_cons.1 hq with rfl | hq₁
      · refine ⟨hk, ?_⟩
        split at hm
        · next pa pb h₁ h₂ => exact ⟨pa, pb, h₁, h₂, hm⟩
        · next => exact absurd hm (by simp)
      · exact hrest q hq₁
    · intro h
      obtain ⟨hk, pa, pb, hpa, hpb, hty⟩ := h (k₁, k₂) (List.mem_cons_self _ _)
      refine ⟨⟨hk, ?_⟩, fun q hq => h q (List.mem_cons_of_mem _ hq)⟩
      split
      · next pa' pb' h₁ h₂ =>
        rw [hpa] at h₁
        rw [hpb] at h₂
        obtain rfl : pa = pa' := by injection h₁
        obtain rfl : pb = pb' := by injection h₂
        exact hty
      · next hno =>
        exact absurd (hno pa pb hpa hpb) (by simp)

/-- Characterization of `typesEqual` on two object nodes: equal sorted key
lists, and pointwise structurally equal property types under lookup. -/
theorem typesEqual_object_iff (aP bP : List (String × PropertyInfo)) (an bn : String) :
    typesEqual (.object aP an) (.object bP bn) = true ↔
      (sortedKeys aP = sortedKeys bP ∧
        ∀ k ∈ sortedKeys aP, ∃ pa pb, assocLookup k aP = some pa ∧
          assocLookup k bP = some pb ∧ typesEqual pa.type pb.type = true) := by
  rw [typesEqual_object_eq, Bool.and_eq_true, beq_iff_eq, objKeysEqual_iff]
  constructor
  · rintro ⟨hlen, hpt⟩
    have hkeys : sortedKeys aP = sortedKeys bP :=
      zip_fst_eq_of_forall hlen (fun p hp => (hpt p hp).1)
    refine ⟨hkeys, ?_⟩
    intro k hk
    have hmem : (k, k) ∈ (sortedKeys aP).zip (sortedKeys bP) := by
      rw [← hkeys]
      exact mem_zip_self hk
    exact (hpt (k, k) hmem).2
  · rintro ⟨hkeys, hpt⟩
    refine ⟨by rw [hkeys], ?_⟩
    intro q hq
    rw [← hkeys] at hq
    obtain ⟨heq, hmem⟩ := zip_self_mem hq
    exact ⟨heq, hpt q.1 hmem⟩

/-- Keys of the sorted key list are the record's keys. -/
theorem mem_sortedKeys {props : List (String × PropertyInfo)} {k : String} :
    k ∈ sortedKeys props ↔ k ∈ keysOf props := by
  rw [sortedKeys]
  exact (List.mergeSort_perm (keysOf props) _).mem_iff

/-- Size bound for a union variant. -/
theorem sizeOf_lt_of_mem_variants {v : InferredType} {vs : List InferredType} (h : v ∈ vs) :
    sizeOf v < sizeOf (InferredType.union vs) := by
  have h₁ := List.sizeOf_lt_of_mem h
  have h₂ : sizeOf (InferredType.union vs) = 1 + sizeOf vs := by simp
  omega

/-- Size bound for a looked-up property type. -/
theorem sizeOf_lt_of_lookup_object {k : String} {props : List (String × PropertyInfo)}
    {p : PropertyInfo} (h : assocLookup k props = some p) (name : String) :
    sizeOf p.type < sizeOf (InferredType.object props name) := by
  have h₁ := sizeOf_type_lt_of_lookup h
  have h₂ : sizeOf (InferredType.object props name) = 1 + sizeOf props + sizeOf name := by simp
  omega

/-- Inversion: only the identical primitive is equal to a primitive. -/
theorem typesEqual_primitive_iff (t : PrimKind) (b : InferredType) :
    typesEqual (.primitive t) b = true ↔ b = .primitive t := by
  cases b <;> simp [typesEqual]
  exact eq_comm

/-- Inversion: only `unknown` is equal to `unknown`. -/
theorem typesEqual_unknown_iff (b : InferredType) :
    typesEqual .unknown b = true ↔ b = .unknown := by
  cases b <;> simp [typesEqual]

/-- Inversion: only `dateString` is equal to `dateString`. -/
theorem typesEqual_dateString_iff (b : InferredType) :
    typesEqual .dateString b = true ↔ b = .dateString := by
  cases b <;> simp [typesEqual]

/-- Inversion for the array case. -/
theorem typesEqual_array_iff (e : InferredType) (b : InferredType) :
    typesEqual (.array e) b = true ↔
      ∃ e', b = .array e' ∧ typesEqual e e' = true := by
  cases b <;> simp [typesEqual]

/-- Inversion for the union case. -/
theorem typesEqual_union_iff (as : List InferredType) (b : InferredType) :
    typesEqual (.union as) b = true ↔
      ∃ bs, b = .union bs ∧ as.length = bs.length ∧
        ∀ p ∈ as.zip bs, typesEqual p.1 p.2 = true := by
  cases b with
  | union bs =>
    rw [typesEqual_union_eq, Bool.and_eq_true, beq_iff_eq, unionVariantsEqual_iff]
    constructor
    · rintro ⟨hlen, hpt⟩; exact ⟨bs, rfl, hlen, hpt⟩
    · rintro ⟨bs', heq, hlen, hpt⟩
      obtain rfl : bs = bs' := by injection heq
      exact ⟨hlen, hpt⟩
  | _ => simp [typesEqual]

/-- Inversion for the object case. -/
theorem typesEqual_object_inv_iff (aP : List (String × PropertyInfo)) (an : String)
    (b : InferredType) :
    typesEqual (.object aP an) b = true ↔
      ∃ bP bn, b = .object bP bn ∧ sortedKeys aP = sortedKeys bP ∧
        ∀ k ∈ sortedKeys aP, ∃ pa pb, assocLookup k aP = some pa ∧
          assocLookup k bP = some pb ∧ typesEqual pa.type pb.type = true := by
  cases b with
  | object bP bn =>
    rw [typesEqual_object_iff]
    constructor
    · rintro ⟨hkeys, hpt⟩; exact ⟨bP, bn, rfl, hkeys, hpt⟩
    · rintro ⟨bP', bn', heq, hkeys, hpt⟩
      obtain ⟨rfl, rfl⟩ : bP = bP' ∧ bn = bn' := by
        refine ⟨?_, ?_⟩ <;> injection heq <;> assumption
      exact ⟨hkeys, hpt⟩
  | _ => simp [typesEqual]

/-- Reflexivity of structural equality (size-bounded auxiliary). -/
theorem typesEqual_refl_aux :
    ∀ (n : Nat) (a : InferredType), sizeOf a ≤ n → typesEqual a a = true := by
  intro n
  induction n using Nat.strong_induction_on with
  | _ n ih =>
    intro a hle
    cases a with
    | primitive t => simp [typesEqual]
    | unknown => simp [typesEqual]
    | dateString => simp [typesEqual]
    | array e =>
      rw [typesEqual_array_eq]
      have hs : sizeOf (InferredType.array e) = 1 + sizeOf e := by simp
      exact ih (sizeOf e) (by omega) e (le_refl _)
    | union vs =>
      rw [typesEqual_union_eq, Bool.and_eq_true]
      refine ⟨by simp, ?_⟩
      rw [unionVariantsEqual_iff]
      intro p hp
      obtain ⟨heq, hmem⟩ := zip_self_mem hp
      have hs := sizeOf_lt_of_mem_variants hmem
      rw [← heq]
      exact ih (sizeOf p.1) (by omega) p.1 (le_refl _)
    | object props name =>
      refine (typesEqual_object_iff _ _ _ _).2 ⟨rfl, ?_⟩
      intro k hk
      have hk' : k ∈ keysOf props := mem_sortedKeys.1 hk
      have hsome := (assocLookup_isSome k props).2 hk'
      obtain ⟨pa, hpa⟩ := Option.isSome_iff_exists.1 hsome
      refine ⟨pa, pa, hpa, hpa, ?_⟩
      have hs := sizeOf_lt_of_lookup_object hpa name
      exact ih (sizeOf pa.type) (by omega) pa.type (le_refl _)

/-- Reflexivity of structural equality. -/
theorem typesEqual_refl (a : InferredType) : typesEqual a a = true :=
  typesEqual_refl_aux (sizeOf a) a (le_refl _)

/-- Symmetry of structural equality (size-bounded auxiliary). -/
theorem typesEqual_symm_aux :
    ∀ (n : Nat) (a b : InferredType), sizeOf a + sizeOf b ≤ n →
      typesEqual a b = typesEqual b a := by
  intro n
  induction n using Nat.strong_induction_on with
  | _ n ih =>
    intro a b hle
    rw [Bool.eq_iff_iff]
    cases a with
    | primitive t =>
      rw [typesEqual_primitive_iff]
      cases b <;> simp [typesEqual] <;> exact eq_comm
    | unknown =>
      rw [typesEqual_unknown_iff]
      cases b <;> simp [typesEqual]
    | dateString =>
      rw [typesEqual_dateString_iff]
      cases b <;> simp [typesEqual]
    | array e =>
      rw [typesEqual_array_iff]
      cases b with
      | array e' =>
        rw [typesEqual_array_eq]
        have hs : sizeOf (InferredType.array e) = 1 + sizeOf e := by simp
        have hs' : sizeOf (InferredType.array e') = 1 + sizeOf e' := by simp
        rw [ih (sizeOf e' + sizeOf e) (by omega) e' e (le_refl _)]
        constructor
        · rintro ⟨e'', heq, hty⟩
          obtain rfl : e' = e'' := by injection heq
          exact hty
        · intro h; exact ⟨e', rfl, h⟩
      | _ => simp [typesEqual]
    | union as =>
      rw [typesEqual_union_iff]
      cases b with
      | union bs =>
        rw [typesEqual_union_eq, Bool.and_eq_true, beq_iff_eq, unionVariantsEqual_iff]
        have hsa : sizeOf (InferredType.union as) = 1 + sizeOf as := by simp
        have hsb : sizeOf (InferredType.union bs) = 1 + sizeOf bs := by simp
        constructor
        · rintro ⟨bs', heq, hlen, hpt⟩
          obtain rfl : bs = bs' := by injection heq
          refine ⟨hlen.symm, ?_⟩
          rintro ⟨x, y⟩ hp
          have hp' : (y, x) ∈ as.zip bs := by
            rw [← List.zip_swap bs as]
            exact List.mem_map_of_mem Prod.swap hp
          have hmem := List.of_mem_zip hp
          have h₁ := List.sizeOf_lt_of_mem hmem.1
          have h₂ := List.sizeOf_lt_of_mem hmem.2
          have hyx := hpt (y, x) hp'
          have hsym := ih (sizeOf x + sizeOf y) (by omega) x y (le_refl _)
          simp only at hyx ⊢
          rw [hsym]
          exact hyx
        · rintro ⟨hlen, hpt⟩
          refine ⟨bs, rfl, hlen.symm, ?_⟩
          rintro ⟨x, y⟩ hp
          have hp' : (y, x) ∈ bs.zip as := by
            rw [← List.zip_swap as bs]
            exact List.mem_map_of_mem Prod.swap hp
          have hmem := List.of_mem_zip hp
          have h₁ := List.sizeOf_lt_of_mem hmem.1
          have h₂ := List.sizeOf_lt_of_mem hmem.2
          have hyx := hpt (y, x) hp'
          have hsym := ih (sizeOf x + sizeOf y) (by omega) x y (le_refl _)
          simp only at hyx ⊢
          rw [hsym]
          exact hyx
      | _ => simp [typesEqual]
    | object aP an =>
      rw [typesEqual_object_inv_iff]
      cases b with
      | object bP bn =>
        rw [typesEqual_object_iff]
        constructor
        · rintro ⟨bP', bn', heq, hkeys, hpt⟩
          obtain ⟨rfl, rfl⟩ : bP = bP' ∧ bn = bn' := by
            refine ⟨?_, ?_⟩ <;> injection heq <;> assumption
          refine ⟨hkeys.symm, ?_⟩
          intro k hk
          rw [← hkeys] at hk
          obtain ⟨pa, pb, hpa, hpb, hty⟩ := hpt k hk
          refine ⟨pb, pa, hpb, hpa, ?_⟩
          have h₁ := sizeOf_lt_of_lookup_object hpa an
          have h₂ := sizeOf_lt_of_lookup_object hpb bn
          rw [ih (sizeOf pb.type + sizeOf pa.type) (by omega) pb.type pa.type (le_refl _)]
          exact hty
        · rintro ⟨hkeys, hpt⟩
          refine ⟨bP, bn, rfl, hkeys.symm, ?_⟩
          intro k hk
          have hk' : k ∈ sortedKeys bP := by rw [hkeys]; exact hk
          obtain ⟨pa, pb, hpa, hpb, hty⟩ := hpt k hk'
          refine ⟨pb, pa, hpb, hpa, ?_⟩
          have h₁ := sizeOf_lt_of_lookup_object hpa bn
          have h₂ := sizeOf_lt_of_lookup_object hpb an
          rw [ih (sizeOf pb.type + sizeOf pa.type) (by omega) pb.type pa.type (le_refl _)]
          exact hty
      | _ => simp [typesEqual]

/-- Symmetry of structural equality. -/
theorem typesEqual_symm (a b : InferredType) : typesEqual a b = typesEqual b a :=
  typesEqual_symm_aux (sizeOf a + sizeOf b) a b (le_refl _)

/-- A pair drawn from the zip of the outer lists of two equal-length chains
has a middle companion in both adjacent zips. -/
theorem zip_mem_of_zip_mem {α : Type} :
    ∀ (as bs cs : List α) (x z : α), as.length = bs.length → bs.length = cs.length →
      (x, z) ∈ as.zip cs →
      ∃ y, (x, y) ∈ as.zip bs ∧ (y, z) ∈ bs.zip cs := by
  intro as
  induction as with
  | nil => intro bs cs x z h₁ h₂ hm; simp at hm
  | cons a as ih =>
    intro bs cs x z h₁ h₂ hm
    cases bs with
    | nil => simp at h₁
    | cons b bs =>
      cases cs with
      | nil => simp at h₂
      | cons c cs =>
        simp only [List.zip_cons_cons] at hm
        rcases List.mem_cons.1 hm with heq | hm'
        · injection heq with hx hz
          refine ⟨b, ?_, ?_⟩
          · rw [List.zip_cons_cons, ← hx]
            exact List.mem_cons_self _ _
          · rw [List.zip_cons_cons, ← hz]
            exact List.mem_cons_self _ _
        · obtain ⟨y, hy₁, hy₂⟩ := ih bs cs x z (by simpa using h₁) (by simpa using h₂) hm'
          refine ⟨y, ?_, ?_⟩
          · rw [List.zip_cons_cons]
            exact List.mem_cons_of_mem _ hy₁
          · rw [List.zip_cons_cons]
            exact List.mem_cons_of_mem _ hy₂

/-- Transitivity of structural equality (size-bounded auxiliary). -/
theorem typesEqual_trans_aux :
    ∀ (n : Nat) (a b c : InferredType), sizeOf a + sizeOf b + sizeOf c ≤ n →
      typesEqual a b = true → typesEqual b c = true → typesEqual a c = true := by
  intro n
  induction n using Nat.strong_induction_on with
  | _ n ih =>
    intro a b c hle hab hbc
    cases a with
    | primitive t =>
      rw [typesEqual_primitive_iff] at hab
      subst hab
      rw [typesEqual_primitive_iff] at hbc ⊢
      exact hbc
    | unknown =>
      rw [typesEqual_unknown_iff] at hab
      subst hab
      rw [typesEqual_unknown_iff] at hbc ⊢
      exact hbc
    | dateString =>
      rw [typesEqual_dateString_iff] at hab
      subst hab
      rw [typesEqual_dateString_iff] at hbc ⊢
      exact hbc
    | array e =>
      rw [typesEqual_array_iff] at hab
      obtain ⟨e', rfl, hee'⟩ := hab
      rw [typesEqual_array_iff] at hbc
      obtain ⟨e'', rfl, hee''⟩ := hbc
      rw [typesEqual_array_iff]
      refine ⟨e'', rfl, ?_⟩
      have h₁ : sizeOf (InferredType.array e) = 1 + sizeOf e := by simp
      have h₂ : sizeOf (InferredType.array e') = 1 + sizeOf e' := by simp
      have h₃ : sizeOf (InferredType.array e'') = 1 + sizeOf e'' := by simp
      exact ih (sizeOf e + sizeOf e' + sizeOf e'') (by omega) e e' e'' (le_refl _) hee' hee''
    | union as =>
      rw [typesEqual_union_iff] at hab
      obtain ⟨bs, rfl, hlen₁, hpt₁⟩ := hab
      rw [typesEqual_union_iff] at hbc
      obtain ⟨cs, rfl, hlen₂, hpt₂⟩ := hbc
      rw [typesEqual_union_iff]
      refine ⟨cs, rfl, hlen₁.trans hlen₂, ?_⟩
      rintro ⟨x, z⟩ hp
      obtain ⟨y, hab₁, hbc₁⟩ := zip_mem_of_zip_mem as bs cs x z hlen₁ hlen₂ hp
      have ht₁ : typesEqual x y = true := hpt₁ _ hab₁
      have ht₂ : typesEqual y z = true := hpt₂ _ hbc₁
      have hma := List.sizeOf_lt_of_mem (List.mem_zip hab₁).1
      have hmb := List.sizeOf_lt_of_mem (List.mem_zip hbc₁).1
      have hmc := List.sizeOf_lt_of_mem (List.mem_zip hbc₁).2
      have hsa : sizeOf (InferredType.union as) = 1 + sizeOf as := by simp
      have hsb : sizeOf (InferredType.union bs) = 1 + sizeOf bs := by simp
      have hsc : sizeOf (InferredType.union cs) = 1 + sizeOf cs := by simp
      exact ih (sizeOf x + sizeOf y + sizeOf z) (by omega) x y z (le_refl _) ht₁ ht₂
    | object aP an =>
      rw [typesEqual_object_inv_iff] at hab
      obtain ⟨bP, bn, rfl, hkeys₁, hpt₁⟩ := hab
      rw [typesEqual_object_inv_iff] at hbc
      obtain ⟨cP, cn, rfl, hkeys₂, hpt₂⟩ := hbc
      rw [typesEqual_object_inv_iff]
      refine ⟨cP, cn, rfl, hkeys₁.trans hkeys₂, ?_⟩
      intro k hk
      obtain ⟨pa, pb, hpa, hpb, hty₁⟩ := hpt₁ k hk
      have hk₂ : k ∈ sortedKeys bP := by rw [← hkeys₁]; exact hk
      obtain ⟨pb', pc, hpb', hpc, hty₂⟩ := hpt₂ k hk₂
      obtain rfl : pb = pb' := by rw [hpb] at hpb'; injection hpb'
      refine ⟨pa, pc, hpa, hpc, ?_⟩
      have h₁ := sizeOf_lt_of_lookup_object hpa an
      have h₂ := sizeOf_lt_of_lookup_object hpb bn
      have h₃ := sizeOf_lt_of_lookup_object hpc cn
      exact ih (sizeOf pa.type + sizeOf pb.type + sizeOf pc.type) (by omega)
        _ _ _ (le_refl _) hty₁ hty₂

/-- Transitivity of structural equality. -/
theorem typesEqual_trans {a b c : InferredType} (hab : typesEqual a b = true)
    (hbc : typesEqual b c = true) : typesEqual a c = true :=
  typesEqual_trans_aux (sizeOf a + sizeOf b + sizeOf c) a b c (le_refl _) hab hbc

/-- C10: structural equality (`typesEqual`) is an equivalence relation on
`InferredType`: reflexive, symmetric (as a Boolean-valued function) and
transitive. -/
theorem spec_c10 :
    (∀ a : InferredType, typesEqual a a = true) ∧
    (∀ a b : InferredType, typesEqual a b = typesEqual b a) ∧
    (∀ a b c : InferredType, typesEqual a b = true → typesEqual b c = true →
      typesEqual a c = true) :=
  ⟨typesEqual_refl, typesEqual_symm,
    fun _ _ _ hab hbc => typesEqual_trans hab hbc⟩

/-- Witness for C10 at concrete types: reflexivity on an object, symmetry on a
mismatched pair, and transitivity through three structurally equal objects
that differ in their flags and names. -/
theorem spec_c10_witness :
    typesEqual (.object [("a", .mk (.primitive .string) false false)] "X")
      (.object [("a", .mk (.primitive .string) false false)] "X") = true ∧
    typesEqual (.primitive .string) .unknown = typesEqual .unknown (.primitive .string) ∧
    typesEqual (.object [("a", .mk (.primitive .string) false false)] "X")
      (.object [("a", .mk (.primitive .string) true true)] "Z") = true := by
  refine ⟨spec_c10.1 _, spec_c10.2.1 _ _,
    spec_c10.2.2 _ (.object [("a", .mk (.primitive .string) false true)] "Y") _ ?_ ?_⟩ <;>
    simp [typesEqual, objKeysEqual, sortedKeys, keysOf, assocLookup, PropertyInfo.type]

/-! ## The union invariant is preserved by merging -/

/-- Plain form of `objInvariant`. -/
theorem objInvariant_eq (o : ObjectType) :
    objInvariant o = o.properties.all (fun kp => UnionInvariant kp.2.type) := by
  rw [objInvariant, attach_all o.properties (fun kp => UnionInvariant kp.2.type)]

/-- Unfolded form of `UnionInvariant` on an array node. -/
theorem unionInvariant_array (e : InferredType) :
    UnionInvariant (.array e) = UnionInvariant e := by
  simp [UnionInvariant]

/-- The invariant of an object node viewed through `ObjectType.toType`. -/
theorem unionInvariant_toType (o : ObjectType) :
    UnionInvariant o.toType = objInvariant o := by
  rw [ObjectType.toType, unionInvariant_object, objInvariant_eq]

/-- `asObject` preserves the invariant. -/
theorem asObject_invariant {t : InferredType} {o : ObjectType}
    (h : asObject t = some o) (hinv : UnionInvariant t = true) : objInvariant o = true := by
  cases t <;> simp [asObject] at h
  case object props n =>
    subst h
    rw [objInvariant_eq]
    rw [unionInvariant_object] at hinv
    exact hinv

/-- `noDupVariants` is the pairwise-distinct predicate. -/
theorem noDupVariants_iff_pairwise (l : List InferredType) :
    noDupVariants l = true ↔ List.Pairwise (fun a b => typesEqual a b = false) l := by
  induction l with
  | nil => simp [noDupVariants]
  | cons t ts ih =>
    rw [noDupVariants, Bool.and_eq_true, List.all_eq_true, List.pairwise_cons, ih]
    constructor
    · rintro ⟨h₁, h₂⟩
      exact ⟨fun u hu => by simpa using h₁ u hu, h₂⟩
    · rintro ⟨h₁, h₂⟩
      exact ⟨fun u hu => by simpa using h₁ u hu, h₂⟩

/-- Truth characterization of the union-node invariant. -/
theorem unionInvariant_union_iff (vs : List InferredType) :
    UnionInvariant (.union vs) = true ↔
      ((∀ v ∈ vs, isUnionType v = false ∧ UnionInvariant v = true) ∧
        List.Pairwise (fun a b => typesEqual a b = false) vs) := by
  rw [unionInvariant_union, Bool.and_eq_true, List.all_eq_true, noDupVariants_iff_pairwise]
  constructor
  · rintro ⟨h₁, h₂⟩
    refine ⟨fun v hv => ?_, h₂⟩
    have := h₁ v hv
    rw [Bool.and_eq_true] at this
    exact ⟨by simpa using this.1, this.2⟩
  · rintro ⟨h₁, h₂⟩
    refine ⟨fun v hv => ?_, h₂⟩
    rw [Bool.and_eq_true]
    exact ⟨by simp [(h₁ v hv).1], (h₁ v hv).2⟩

/-- Every element a flattening produces is itself flat and not a union
(size-bounded auxiliary). -/
theorem flattenUnions_mem_aux :
    ∀ (n : Nat) (ts : List InferredType), sizeOf ts ≤ n →
      (∀ t ∈ ts, UnionInvariant t = true) →
      ∀ t ∈ flattenUnions ts, isUnionType t = false ∧ UnionInvariant t = true := by
  intro n
  induction n using Nat.strong_induction_on with
  | _ n ih =>
    intro ts hle hinv t ht
    cases ts with
    | nil => simp [flattenUnions] at ht
    | cons u us =>
      have hsz : sizeOf (u :: us) = 1 + sizeOf u + sizeOf us := by simp
      cases u with
      | union vs =>
        rw [show flattenUnions (InferredType.union vs :: us) =
            flattenUnions vs ++ flattenUnions us from by simp [flattenUnions]] at ht
        have hu := hinv _ (List.mem_cons_self _ _)
        rw [unionInvariant_union_iff] at hu
        have hsv : sizeOf (InferredType.union vs) = 1 + sizeOf vs := by simp
        rcases List.mem_append.1 ht with h₁ | h₁
        · exact ih (sizeOf vs) (by omega) vs (le_refl _) (fun v hv => (hu.1 v hv).2) t h₁
        · exact ih (sizeOf us) (by omega) us (le_refl _)
            (fun v hv => hinv v (List.mem_cons_of_mem _ hv)) t h₁
      | primitive k =>
        rw [show flattenUnions (InferredType.primitive k :: us) =
            .primitive k :: flattenUnions us from by simp [flattenUnions]] at ht
        rcases List.mem_cons.1 ht with rfl | h₁
        · exact ⟨rfl, hinv _ (List.mem_cons_self _ _)⟩
        · exact ih (sizeOf us) (by omega) us (le_refl _)
            (fun v hv => hinv v (List.mem_cons_of_mem _ hv)) t h₁
      | array e =>
        rw [show flattenUnions (InferredType.array e :: us) =
            .array e :: flattenUnions us from by simp [flattenUnions]] at ht
        rcases List.mem_cons.1 ht with rfl | h₁
        · exact ⟨rfl, hinv _ (List.mem_cons_self _ _)⟩
        · exact ih (sizeOf us) (by omega) us (le_refl _)
            (fun v hv => hinv v (List.mem_cons_of_mem _ hv)) t h₁
      | object props nm =>
        rw [show flattenUnions (InferredType.object props nm :: us) =
            .object props nm :: flattenUnions us from by simp [flattenUnions]] at ht
        rcases List.mem_cons.1 ht with rfl | h₁
        · exact ⟨rfl, hinv _ (List.mem_cons_self _ _)⟩
        · exact ih (sizeOf us) (by omega) us (le_refl _)
            (fun v hv => hinv v (List.mem_cons_of_mem _ hv)) t h₁
      | unknown =>
        rw [show flattenUnions (InferredType.unknown :: us) =
            .unknown :: flattenUnions us from by simp [flattenUnions]] at ht
        rcases List.mem_cons.1 ht with rfl | h₁
        · exact ⟨rfl, hinv _ (List.mem_cons_self _ _)⟩
        · exact ih (sizeOf us) (by omega) us (le_refl _)
            (fun v hv => hinv v (List.mem_cons_of_mem _ hv)) t h₁
      | dateString =>
        rw [show flattenUnions (InferredType.dateString :: us) =
            .dateString :: flattenUnions us from by simp [flattenUnions]] at ht
        rcases List.mem_cons.1 ht with rfl | h₁
        · exact ⟨rfl, hinv _ (List.mem_cons_self _ _)⟩
        · exact ih (sizeOf us) (by omega) us (le_refl _)
            (fun v hv => hinv v (List.mem_cons_of_mem _ hv)) t h₁

/-- Every element a flattening of invariant inputs produces is a non-union
invariant type. -/
theorem flattenUnions_mem {ts : List InferredType}
    (hinv : ∀ t ∈ ts, UnionInvariant t = true) :
    ∀ t ∈ flattenUnions ts, isUnionType t = false ∧ UnionInvariant t = true :=
  flattenUnions_mem_aux (sizeOf ts) ts (le_refl _) hinv

/-- Elements of the deduplication accumulator loop come from the accumulator
or the input. -/
theorem mem_dedupAux {ts acc : List InferredType} {x : InferredType}
    (h : x ∈ dedupAux acc ts) : x ∈ acc ∨ x ∈ ts := by
  induction ts generalizing acc with
  | nil => rw [dedupAux] at h; exact .inl h
  | cons t ts ih =>
    rw [dedupAux] at h
    by_cases hg : acc.any (fun r => typesEqual r t)
    · rw [if_pos hg] at h
      rcases ih h with h₁ | h₁
      · exact .inl h₁
      · exact .inr (List.mem_cons_of_mem _ h₁)
    · rw [if_neg hg] at h
      rcases ih h with h₁ | h₁
      · rcases List.mem_append.1 h₁ with h₂ | h₂
        · exact .inl h₂
        · exact .inr (by rw [List.mem_singleton.1 h₂]; exact List.mem_cons_self _ _)
      · exact .inr (List.mem_cons_of_mem _ h₁)

/-- The deduplication loop preserves pairwise distinctness of the
accumulator. -/
theorem dedupAux_pairwise {ts acc : List InferredType}
    (hacc : List.Pairwise (fun a b => typesEqual a b = false) acc) :
    List.Pairwise (fun a b => typesEqual a b = false) (dedupAux acc ts) := by
  induction ts generalizing acc with
  | nil => rw [dedupAux]; exact hacc
  | cons t ts ih =>
    rw [dedupAux]
    by_cases hg : acc.any (fun r => typesEqual r t)
    · rw [if_pos hg]; exact ih hacc
    · rw [if_neg hg]
      refine ih ?_
      rw [List.pairwise_append]
      refine ⟨hacc, List.pairwise_singleton _ _, ?_⟩
      intro a ha b hb
      have hbt : b = t := List.mem_singleton.1 hb
      by_contra hc
      rw [hbt] at hc
      have hc' : typesEqual a t = true := by
        cases hh : typesEqual a t
        · exact absurd hh hc
        · rfl
      exact hg (List.any_eq_true.2 ⟨a, ha, hc'⟩)

/-- Deduplicated invariant inputs form the variant list of an invariant
union. -/
theorem deduplicateTypes_pairwise (ts : List InferredType) :
    List.Pairwise (fun a b => typesEqual a b = false) (deduplicateTypes ts) :=
  dedupAux_pairwise List.Pairwise.nil

/-- `mergeTypes` preserves the union invariant. -/
theorem mergeTypes_invariant {ts : List InferredType}
    (h : ∀ t ∈ ts, UnionInvariant t = true) : UnionInvariant (mergeTypes ts) = true := by
  cases ts with
  | nil => simp [mergeTypes, UnionInvariant]
  | cons a ts' =>
    have hflat := flattenUnions_mem h
    have hdemem : ∀ t ∈ deduplicateTypes (flattenUnions (a :: ts')),
        isUnionType t = false ∧ UnionInvariant t = true := by
      intro t ht
      rcases mem_dedupAux ht with h₁ | h₁
      · simp at h₁
      · exact hflat t h₁
    have hdepair := deduplicateTypes_pairwise (flattenUnions (a :: ts'))
    have hfmem : ∀ t ∈ (deduplicateTypes (flattenUnions (a :: ts'))).filter
        (fun t => !isUnknownType t), isUnionType t = false ∧ UnionInvariant t = true := by
      intro t ht
      exact hdemem t (List.mem_of_mem_filter ht)
    have hfpair : List.Pairwise (fun a b => typesEqual a b = false)
        ((deduplicateTypes (flattenUnions (a :: ts'))).filter (fun t => !isUnknownType t)) :=
      hdepair.sublist (List.filter_sublist _)
    simp only [mergeTypes]
    by_cases hlen : ((deduplicateTypes (flattenUnions (a :: ts'))).filter
        (fun t => !isUnknownType t)).length > 0
    · rw [if_pos hlen]
      rcases hshape : (deduplicateTypes (flattenUnions (a :: ts'))).filter
          (fun t => !isUnknownType t) with _ | ⟨x, _ | ⟨y, rest⟩⟩
      · rw [hshape] at hlen; simp at hlen
      · exact (hfmem x (by rw [hshape]; exact List.mem_cons_self _ _)).2
      · rw [unionInvariant_union_iff]
        rw [hshape] at hfmem hfpair
        exact ⟨hfmem, hfpair⟩
    · rw [if_neg hlen]
      rcases hshape : deduplicateTypes (flattenUnions (a :: ts')) with _ | ⟨x, _ | ⟨y, rest⟩⟩
      · rw [unionInvariant_union_iff]
        simp
      · exact (hdemem x (by rw [hshape]; exact List.mem_cons_self _ _)).2
      · rw [unionInvariant_union_iff]
        rw [hshape] at hdemem hdepair
        exact ⟨hdemem, hdepair⟩

/-- The occurrence types collected for a key are invariant when the input
objects are. -/
theorem typesForKey_invariant {objects : List ObjectType} {k : String}
    (h : ∀ o ∈ objects, objInvariant o = true) :
    ∀ t ∈ typesForKey objects k, UnionInvariant t = true := by
  intro t ht
  rw [typesForKey] at ht
  rcases List.mem_filterMap.1 ht with ⟨o, ho, hlk⟩
  rcases Option.map_eq_some'.1 hlk with ⟨p, hp, rfl⟩
  have hmem := assocLookup_mem hp
  have hobj := h o ho
  rw [objInvariant_eq, List.all_eq_true] at hobj
  simpa using hobj (k, p) hmem

/-- The merged property of a key keeps the union invariant. -/
theorem mergeProp_invariant {objects : List ObjectType} {k : String}
    (h : ∀ o ∈ objects, objInvariant o = true) :
    UnionInvariant (mergeProp objects k).type = true := by
  have hm := mergeTypes_invariant (typesForKey_invariant (k := k) h)
  rcases hmt : mergeTypes (typesForKey objects k) with _ | _ | _ | vs | _ | _ <;>
    rw [hmt] at hm <;> simp only [mergeProp, hmt, PropertyInfo.type]
  case union =>
    have hm' := (unionInvariant_union_iff vs).1 hm
    by_cases hn : vs.any isNullPrim
    · simp only [hn, if_true]
      rcases hf : vs.filter (fun v => !isNullPrim v) with _ | ⟨t, _ | ⟨u, more⟩⟩ <;>
        simp only [PropertyInfo.type]
      · simp [UnionInvariant]
      · exact (hm'.1 t (List.mem_of_mem_filter (by rw [hf]; exact List.mem_cons_self _ _))).2
      · rw [unionInvariant_union_iff]
        constructor
        · intro v hv
          exact hm'.1 v (List.mem_of_mem_filter (by rw [hf]; exact hv))
        · have hp := hm'.2.sublist
            (List.filter_sublist (p := fun v => !isNullPrim v) vs)
          rw [hf] at hp
          exact hp
    · simp only [hn, Bool.false_eq_true, if_false, PropertyInfo.type]
      exact hm
  all_goals exact hm

/-- `mergeObjectTypes` preserves the union invariant. -/
theorem mergeObjectTypes_invariant {objects : List ObjectType} {name : String}
    (h : ∀ o ∈ objects, objInvariant o = true) :
    objInvariant (mergeObjectTypes objects name) = true := by
  rcases objects with _ | ⟨a, _ | ⟨b, rest⟩⟩
  · simp [mergeObjectTypes, objInvariant_eq]
  · rw [mergeObjectTypes]
    rw [objInvariant_eq]
    have ha := h a (List.mem_singleton_self _)
    rw [objInvariant_eq] at ha
    exact ha
  · rw [mergeObjectTypes]
    · rw [objInvariant_eq, List.all_eq_true]
      intro kp hkp
      rcases List.mem_map.1 hkp with ⟨k, _, rfl⟩
      simpa using mergeProp_invariant (k := k) h
    all_goals simp

/-! ## The union invariant holds for every inferred tree -/

/-- Types produced by the element loop are invariant when inference is
invariant on every element. -/
theorem inferElems_invariant {s : InferSettings} :
    ∀ (ys : List Json) (path : List String) (i : Nat) (st : InferState),
      (∀ y ∈ ys, ∀ (path' : List String) (st' : InferState),
        UnionInvariant (infer s y path' st').1 = true) →
      ∀ t ∈ (inferElems s ys path i st).1, UnionInvariant t = true := by
  intro ys
  induction ys with
  | nil =>
    intro path i st h t ht
    simp [inferElems] at ht
  | cons y ys ih =>
    intro path i st h t ht
    simp only [inferElems] at ht
    rcases List.mem_cons.1 ht with rfl | h₁
    · exact h y (List.mem_cons_self _ _) _ _
    · exact ih path (i + 1) _ (fun z hz => h z (List.mem_cons_of_mem _ hz)) t h₁

/-- Properties produced by the key loop are invariant when inference is
invariant on every value. -/
theorem inferProps_invariant {s : InferSettings} :
    ∀ (kvs : List (String × Json)) (path : List String) (st : InferState),
      (∀ kv ∈ kvs, ∀ (path' : List String) (st' : InferState),
        UnionInvariant (infer s kv.2 path' st').1 = true) →
      ∀ kp ∈ (inferProps s kvs path st).1, UnionInvariant kp.2.type = true := by
  intro kvs
  induction kvs with
  | nil =>
    intro path st h kp hkp
    simp [inferProps] at hkp
  | cons kv kvs ih =>
    intro path st h kp hkp
    obtain ⟨k, v⟩ := kv
    simp only [inferProps] at hkp
    rcases List.mem_cons.1 hkp with rfl | h₁
    · by_cases hn : isNullPrim (infer s v (path ++ [k])
          { st with fieldCount := st.fieldCount + 1 }).1
      · simp only [hn, if_true, PropertyInfo.type]
        simp [UnionInvariant]
      · simp only [hn, Bool.false_eq_true, if_false, PropertyInfo.type]
        exact h (k, v) (List.mem_cons_self _ _) _ _
    · exact ih path _ (fun z hz => h z (List.mem_cons_of_mem _ hz)) kp h₁

/-- The type returned by `infer` always satisfies the union invariant
(size-bounded auxiliary). -/
theorem infer_invariant :
    ∀ (n : Nat) (v : Json) (s : InferSettings) (path : List String) (st : InferState),
      sizeOf v ≤ n → UnionInvariant (infer s v path st).1 = true := by
  intro n
  induction n using Nat.strong_induction_on with
  | _ n ih =>
    intro v s path st hle
    cases v with
    | null => simp [infer, UnionInvariant]
    | bool b => simp [infer, UnionInvariant]
    | num m => simp [infer, UnionInvariant]
    | str sv =>
      by_cases hd : s.detectDates && isoMatch sv <;> simp [infer, hd, UnionInvariant]
    | obj kvs =>
      have hkvs : ∀ kv ∈ kvs, ∀ (path' : List String) (st' : InferState),
          UnionInvariant (infer s kv.2 path' st').1 = true := by
        intro kv hkv path' st'
        have h₁ := List.sizeOf_lt_of_mem hkv
        have hsz : sizeOf (Json.obj kvs) = 1 + sizeOf kvs := by simp
        have hkv2 : sizeOf kv.2 < sizeOf kv := by
          obtain ⟨kk, vv⟩ := kv
          simp
        exact ih (sizeOf kv.2) (by omega) kv.2 s path' st' (le_refl _)
      have hprops := inferProps_invariant kvs path st hkvs
      simp only [infer, inferObject, ObjectType.toType]
      rw [unionInvariant_object, List.all_eq_true]
      intro kp hkp
      exact hprops kp hkp
    | arr xs =>
      have hxs : ∀ y ∈ xs, ∀ (path' : List String) (st' : InferState),
          UnionInvariant (infer s y path' st').1 = true := by
        intro y hy path' st'
        have h₁ := List.sizeOf_lt_of_mem hy
        have hsz : sizeOf (Json.arr xs) = 1 + sizeOf xs := by simp
        exact ih (sizeOf y) (by omega) y s path' st' (le_refl _)
      have htinv := inferElems_invariant xs path 0 st hxs
      simp only [infer]
      by_cases he : xs.isEmpty
      · simp [inferArray, he, UnionInvariant]
      · simp only [inferArray, he, Bool.false_eq_true, if_false]
        by_cases h₁ : ((inferElems s xs path 0 st).1.filterMap asObject).length = xs.length
        · simp only [h₁, if_true]
          rw [unionInvariant_array, unionInvariant_toType]
          apply mergeObjectTypes_invariant
          intro o ho
          rcases List.mem_filterMap.1 ho with ⟨t, ht, hto⟩
          exact asObject_invariant hto (htinv t ht)
        · simp only [h₁, if_false]
          by_cases h₂ : ((inferElems s xs path 0 st).1.filterMap asObject).length = 0
          · simp only [h₂, if_true]
            rw [unionInvariant_array]
            apply mergeTypes_invariant
            intro t ht
            exact htinv t (List.mem_of_mem_filter ht)
          · simp only [h₂, if_false]
            rw [unionInvariant_array]
            apply mergeTypes_invariant
            intro t ht
            rcases List.mem_append.1 ht with h₃ | h₃
            · exact htinv t (List.mem_of_mem_filter h₃)
            · rw [List.mem_singleton.1 h₃, unionInvariant_toType]
              apply mergeObjectTypes_invariant
              intro o ho
              rcases List.mem_filterMap.1 ho with ⟨t', ht', hto⟩
              exact asObject_invariant hto (htinv t' ht')

/-- C4: every IR tree returned by inference satisfies the union invariant
(every `Union` node has flat, pairwise structurally distinct variants), and
both merge operations preserve it on invariant inputs. -/
theorem spec_c4 :
    (∀ (v : Json) (s : InferSettings), UnionInvariant (inferType v s).type = true) ∧
    (∀ ts : List InferredType, (∀ t ∈ ts, UnionInvariant t = true) →
      UnionInvariant (mergeTypes ts) = true) ∧
    (∀ (objects : List ObjectType) (name : String),
      (∀ o ∈ objects, objInvariant o = true) →
      objInvariant (mergeObjectTypes objects name) = true) := by
  refine ⟨?_, fun ts h => mergeTypes_invariant h,
    fun objects name h => mergeObjectTypes_invariant h⟩
  intro v s
  have hinv := infer_invariant (sizeOf v) v s [] ⟨[], [], 0⟩ (le_refl _)
  have hren : ∀ (t : InferredType) (name : String),
      UnionInvariant (match t with
        | InferredType.object props _ => InferredType.object props name
        | t => t) = UnionInvariant t := by
    intro t name
    cases t <;> first | rfl | simp [unionInvariant_object]
  by_cases hc : isRootContainer v
  · simp only [inferType, hc, if_true]
    rw [hren]
    exact hinv
  · simp only [inferType, hc, Bool.false_eq_true, if_false]
    have hinv' := infer_invariant (sizeOf v) v s [] (pushDiag ⟨[], [], 0⟩ rootErrorDiag)
      (le_refl _)
    exact hinv'

/-- Witness for C4 at concrete inputs: a mixed array inference, a union merge
and an object merge. -/
theorem spec_c4_witness :
    UnionInvariant (inferType (.arr [.num 1, .null, .str "x"]) ⟨"Root", false⟩).type = true ∧
    UnionInvariant (mergeTypes [.primitive .string, .primitive .null]) = true ∧
    objInvariant (mergeObjectTypes [⟨[("a", .mk (.primitive .string) false false)], "A"⟩]
      "M") = true := by
  refine ⟨spec_c4.1 _ _, spec_c4.2.1 _ ?_, spec_c4.2.2 _ "M" ?_⟩
  · intro t ht
    rcases List.mem_cons.1 ht with rfl | ht₁
    · simp [UnionInvariant]
    · rcases List.mem_singleton.1 ht₁ with rfl
      simp [UnionInvariant]
  · intro o ho
    rcases List.mem_singleton.1 ho with rfl
    simp [objInvariant_eq, UnionInvariant, PropertyInfo.type]

/-! ## Diagnostics discipline of the inference engine

Inference only ever appends to the diagnostics array, and everything it
appends is a warning or an info entry — the only error-level diagnostic of
`inferType` is the root-shape check. -/

/-- Element-loop version of the diagnostics-append property. -/
theorem inferElems_diags {s : InferSettings} :
    ∀ (ys : List Json) (path : List String) (i : Nat) (st : InferState),
      (∀ y ∈ ys, ∀ (path' : List String) (st' : InferState),
        ∃ extra, (infer s y path' st').2.diagnostics = st'.diagnostics ++ extra ∧
          ∀ d ∈ extra, d.level ≠ DiagLevel.error) →
      ∃ extra, (inferElems s ys path i st).2.diagnostics = st.diagnostics ++ extra ∧
        ∀ d ∈ extra, d.level ≠ DiagLevel.error := by
  intro ys
  induction ys with
  | nil =>
    intro path i st _
    exact ⟨[], by simp [inferElems], by simp⟩
  | cons y ys ih =>
    intro path i st h
    obtain ⟨e₁, he₁, hn₁⟩ :=
      h y (List.mem_cons_self _ _) (path ++ ["[" ++ Nat.repr i ++ "]"]) st
    obtain ⟨e₂, he₂, hn₂⟩ := ih path (i + 1)
      (infer s y (path ++ ["[" ++ Nat.repr i ++ "]"]) st).2
      (fun z hz => h z (List.mem_cons_of_mem _ hz))
    refine ⟨e₁ ++ e₂, ?_, ?_⟩
    · simp only [inferElems]
      rw [he₂, he₁, List.append_assoc]
    · intro d hd
      rcases List.mem_append.1 hd with h₁ | h₁
      · exact hn₁ d h₁
      · exact hn₂ d h₁

/-- Key-loop version of the diagnostics-append property. -/
theorem inferProps_diags {s : InferSettings} :
    ∀ (kvs : List (String × Json)) (path : List String) (st : InferState),
      (∀ kv ∈ kvs, ∀ (path' : List String) (st' : InferState),
        ∃ extra, (infer s kv.2 path' st').2.diagnostics = st'.diagnostics ++ extra ∧
          ∀ d ∈ extra, d.level ≠ DiagLevel.error) →
      ∃ extra, (inferProps s kvs path st).2.diagnostics = st.diagnostics ++ extra ∧
        ∀ d ∈ extra, d.level ≠ DiagLevel.error := by
  intro kvs
  induction kvs with
  | nil =>
    intro path st _
    exact ⟨[], by simp [inferProps], by simp⟩
  | cons kv kvs ih =>
    intro path st h
    obtain ⟨k, v⟩ := kv
    obtain ⟨e₁, he₁, hn₁⟩ := h (k, v) (List.mem_cons_self _ _) (path ++ [k])
      { st with fieldCount := st.fieldCount + 1 }
    obtain ⟨e₂, he₂, hn₂⟩ := ih path
      (infer s v (path ++ [k]) { st with fieldCount := st.fieldCount + 1 }).2
      (fun z hz => h z (List.mem_cons_of_mem _ hz))
    refine ⟨e₁ ++ e₂, ?_, ?_⟩
    · simp only [inferProps]
      rw [he₂, he₁]
      simp [List.append_assoc]
    · intro d hd
      rcases List.mem_append.1 hd with h₁ | h₁
      · exact hn₁ d h₁
      · exact hn₂ d h₁

/-- `infer` appends only non-error diagnostics (size-bounded auxiliary). -/
theorem infer_diags :
    ∀ (n : Nat) (v : Json) (s : InferSettings) (path : List String) (st : InferState),
      sizeOf v ≤ n →
      ∃ extra, (infer s v path st).2.diagnostics = st.diagnostics ++ extra ∧
        ∀ d ∈ extra, d.level ≠ DiagLevel.error := by
  intro n
  induction n using Nat.strong_induction_on with
  | _ n ih =>
    intro v s path st hle
    cases v with
    | null => exact ⟨[], by simp [infer], by simp⟩
    | bool b => exact ⟨[], by simp [infer], by simp⟩
    | num m => exact ⟨[], by simp [infer], by simp⟩
    | str sv =>
      by_cases hd : s.detectDates && isoMatch sv
      · exact ⟨[isoDateDiag path], by simp [infer, hd, pushDiag], by simp [isoDateDiag]⟩
      · exact ⟨[], by simp [infer, hd], by simp⟩
    | obj kvs =>
      have hkvs : ∀ kv ∈ kvs, ∀ (path' : List String) (st' : InferState),
          ∃ extra, (infer s kv.2 path' st').2.diagnostics = st'.diagnostics ++ extra ∧
            ∀ d ∈ extra, d.level ≠ DiagLevel.error := by
        intro kv hkv path' st'
        have h₁ := List.sizeOf_lt_of_mem hkv
        have hsz : sizeOf (Json.obj kvs) = 1 + sizeOf kvs := by simp
        have hkv2 : sizeOf kv.2 < sizeOf kv := by
          obtain ⟨kk, vv⟩ := kv
          simp
        exact ih (sizeOf kv.2) (by omega) kv.2 s path' st' (le_refl _)
      obtain ⟨e, he, hn⟩ := inferProps_diags kvs path st hkvs
      refine ⟨e, ?_, hn⟩
      simp only [infer, inferObject, genName]
      exact he
    | arr xs =>
      have hxs : ∀ y ∈ xs, ∀ (path' : List String) (st' : InferState),
          ∃ extra, (infer s y path' st').2.diagnostics = st'.diagnostics ++ extra ∧
            ∀ d ∈ extra, d.level ≠ DiagLevel.error := by
        intro y hy path' st'
        have h₁ := List.sizeOf_lt_of_mem hy
        have hsz : sizeOf (Json.arr xs) = 1 + sizeOf xs := by simp
        exact ih (sizeOf y) (by omega) y s path' st' (le_refl _)
      simp only [infer]
      by_cases he : xs.isEmpty
      · exact ⟨[emptyArrayDiag path], by simp [inferArray, he, pushDiag],
          by simp [emptyArrayDiag]⟩
      · obtain ⟨e, hee, hn⟩ := inferElems_diags xs path 0 st hxs
        simp only [inferArray, he, Bool.false_eq_true, if_false]
        by_cases h₁ : ((inferElems s xs path 0 st).1.filterMap asObject).length = xs.length
        · simp only [h₁, if_true]
          exact ⟨e, by simp [genName, hee], hn⟩
        · simp only [h₁, if_false]
          by_cases h₂ : ((inferElems s xs path 0 st).1.filterMap asObject).length = 0
          · simp only [h₂, if_true]
            by_cases h₃ : isUnionType (mergeTypes ((inferElems s xs path 0 st).1.filter
                (fun t => !isObjectType t)))
            · refine ⟨e ++ [mixedTypesDiag path], ?_, ?_⟩
              · simp only [h₃, if_true, pushDiag]
                rw [hee, List.append_assoc]
              · intro d hd
                rcases List.mem_append.1 hd with h₄ | h₄
                · exact hn d h₄
                · rw [List.mem_singleton.1 h₄]
                  simp [mixedTypesDiag]
            · refine ⟨e, ?_, hn⟩
              simp only [h₃, Bool.false_eq_true, if_false]
              exact hee
          · simp only [h₂, if_false]
            refine ⟨e ++ [mixedObjectsDiag path], ?_, ?_⟩
            · simp only [genName, pushDiag]
              rw [hee, List.append_assoc]
            · intro d hd
              rcases List.mem_append.1 hd with h₄ | h₄
              · exact hn d h₄
              · rw [List.mem_singleton.1 h₄]
                simp [mixedObjectsDiag]

/-- C7: the embedded `inferType` is a total function — it terminates on every
input — and its diagnostics contain an error-level entry exactly when the
outermost value is neither an object nor an array; in that case the
best-effort IR `infer` computes for the raw value is still returned. -/
theorem spec_c7 :
    ∀ (v : Json) (s : InferSettings),
      ((∃ d ∈ (inferType v s).diagnostics, d.level = DiagLevel.error) ↔
        isRootContainer v = false) ∧
      (isRootContainer v = false →
        (inferType v s).type = (infer s v [] (pushDiag ⟨[], [], 0⟩ rootErrorDiag)).1) := by
  intro v s
  by_cases hc : isRootContainer v
  · obtain ⟨e, he, hn⟩ := infer_diags (sizeOf v) v s [] ⟨[], [], 0⟩ (le_refl _)
    constructor
    · simp only [inferType, hc, if_true]
      constructor
      · rintro ⟨d, hd, hlev⟩
        rw [he] at hd
        simp only [List.nil_append] at hd
        exact absurd hlev (hn d hd)
      · intro hfalse
        exact absurd hfalse (by simp)
    · intro hfalse
      rw [hc] at hfalse
      exact absurd hfalse (by simp)
  · have hcf : isRootContainer v = false := by
      cases hcc : isRootContainer v
      · rfl
      · exact absurd hcc hc
    obtain ⟨e, he, hn⟩ := infer_diags (sizeOf v) v s []
      (pushDiag ⟨[], [], 0⟩ rootErrorDiag) (le_refl _)
    constructor
    · simp only [inferType, hcf, Bool.false_eq_true, if_false]
      constructor
      · intro _
        trivial
      · intro _
        refine ⟨rootErrorDiag, ?_, rfl⟩
        rw [he]
        refine List.mem_append.2 (.inl ?_)
        simp [pushDiag, rootErrorDiag]
    · intro _
      simp only [inferType, hcf, Bool.false_eq_true, if_false]

/-- Witness for C7 at concrete roots: a bare string root yields an error
diagnostic and a best-effort primitive IR; an object root yields none. -/
theorem spec_c7_witness :
    ((∃ d ∈ (inferType (.str "oops") ⟨"Root", false⟩).diagnostics,
        d.level = DiagLevel.error) ↔ isRootContainer (.str "oops") = false) ∧
    (inferType (.str "oops") ⟨"Root", false⟩).type =
      (infer ⟨"Root", false⟩ (.str "oops") [] (pushDiag ⟨[], [], 0⟩ rootErrorDiag)).1 ∧
    ((∃ d ∈ (inferType (.obj []) ⟨"Root", false⟩).diagnostics,
        d.level = DiagLevel.error) ↔ isRootContainer (.obj []) = false) := by
  refine ⟨(spec_c7 (.str "oops") ⟨"Root", false⟩).1,
    (spec_c7 (.str "oops") ⟨"Root", false⟩).2 rfl,
    (spec_c7 (.obj []) ⟨"Root", false⟩).1⟩

/-! ## C6: null observations at object-property vs array-element position -/

/-- The accumulator of the deduplication loop survives into its result. -/
theorem dedupAux_acc_subset :
    ∀ (ts acc : List InferredType), ∀ x ∈ acc, x ∈ dedupAux acc ts := by
  intro ts
  induction ts with
  | nil => intro acc x hx; rw [dedupAux]; exact hx
  | cons t ts ih =>
    intro acc x hx
    rw [dedupAux]
    by_cases hg : acc.any (fun r => typesEqual r t)
    · rw [if_pos hg]; exact ih acc x hx
    · rw [if_neg hg]; exact ih _ x (List.mem_append_left _ hx)

/-- Every input element has a structurally equal representative in the result
of the deduplication loop. -/
theorem dedupAux_rep :
    ∀ (ts acc : List InferredType), ∀ x ∈ ts,
      ∃ r ∈ dedupAux acc ts, typesEqual r x = true := by
  intro ts
  induction ts with
  | nil => intro acc x hx; simp at hx
  | cons t ts ih =>
    intro acc x hx
    rw [dedupAux]
    by_cases hg : acc.any (fun r => typesEqual r t)
    · rw [if_pos hg]
      rcases List.mem_cons.1 hx with rfl | hx'
      · rcases List.any_eq_true.1 hg with ⟨r, hr, hrt⟩
        exact ⟨r, dedupAux_acc_subset ts acc r hr, hrt⟩
      · exact ih acc x hx'
    · rw [if_neg hg]
      rcases List.mem_cons.1 hx with rfl | hx'
      · exact ⟨x, dedupAux_acc_subset ts _ x
          (List.mem_append_right _ (List.mem_singleton_self x)), typesEqual_refl x⟩
      · exact ih _ x hx'

/-- Every input element has a structurally equal representative in the
deduplicated list. -/
theorem deduplicateTypes_rep {ts : List InferredType} {x : InferredType} (hx : x ∈ ts) :
    ∃ r ∈ deduplicateTypes ts, typesEqual r x = true := by
  rw [deduplicateTypes]
  exact dedupAux_rep ts [] x hx

/-- A type other than `unknown` fails the `unknown` kind test. -/
theorem isUnknownType_eq_false {t : InferredType} (h : t ≠ .unknown) :
    isUnknownType t = false := by
  cases t <;> simp_all [isUnknownType]

/-- A list with two distinct members has at least two elements. -/
theorem two_mem_length {α : Type} {l : List α} {a b : α} (ha : a ∈ l) (hb : b ∈ l)
    (hab : a ≠ b) : 2 ≤ l.length := by
  cases l with
  | nil => simp at ha
  | cons x xs =>
    cases xs with
    | nil =>
      have h₁ := List.mem_singleton.1 ha
      have h₂ := List.mem_singleton.1 hb
      exact absurd (h₁.trans h₂.symm) hab
    | cons y ys => simp only [List.length_cons]; omega

/-- `mergeTypes` on non-union inputs containing `Primitive(null)` and at least
one other meaningful type returns a union that keeps the null variant. -/
theorem mergeTypes_null_union (ts : List InferredType)
    (hnu : ∀ t ∈ ts, isUnionType t = false)
    (hnull : (InferredType.primitive .null) ∈ ts)
    (hother : ∃ w ∈ ts, w ≠ .primitive .null ∧ w ≠ .unknown) :
    ∃ vs, mergeTypes ts = .union vs ∧ (InferredType.primitive .null) ∈ vs := by
  obtain ⟨w, hw, hwnull, hwunk⟩ := hother
  cases ts with
  | nil => simp at hnull
  | cons a ts' =>
    obtain ⟨rn, hrn, hrneq⟩ := deduplicateTypes_rep hnull
    have hrn' : rn = .primitive .null := (typesEqual_null_iff rn).1 hrneq
    rw [hrn'] at hrn
    obtain ⟨rq, hrq, hrqeq⟩ := deduplicateTypes_rep hw
    have hrqnull : rq ≠ .primitive .null := by
      intro h
      rw [h] at hrqeq
      rw [typesEqual_symm] at hrqeq
      exact hwnull ((typesEqual_null_iff w).1 hrqeq)
    have hrqunk : rq ≠ .unknown := by
      intro h
      rw [h] at hrqeq
      exact hwunk ((typesEqual_unknown_iff w).1 hrqeq)
    have hrnq : (InferredType.primitive .null) ≠ rq := fun h => hrqnull h.symm
    have hmn : (InferredType.primitive .null) ∈
        (deduplicateTypes (a :: ts')).filter (fun t => !isUnknownType t) :=
      List.mem_filter.2 ⟨hrn, by simp [isUnknownType]⟩
    have hmq : rq ∈ (deduplicateTypes (a :: ts')).filter (fun t => !isUnknownType t) :=
      List.mem_filter.2 ⟨hrq, by simp [isUnknownType_eq_false hrqunk]⟩
    have hlen := two_mem_length hmn hmq hrnq
    have hpos : ((deduplicateTypes (a :: ts')).filter
        (fun t => !isUnknownType t)).length > 0 := by omega
    simp only [mergeTypes]
    rw [flattenUnions_eq_self hnu]
    rw [if_pos hpos]
    rcases hshape : (deduplicateTypes (a :: ts')).filter (fun t => !isUnknownType t)
      with _ | ⟨x, _ | ⟨y, rest⟩⟩
    · rw [hshape] at hmn; simp at hmn
    · rw [hshape] at hlen; simp at hlen
    · refine ⟨x :: y :: rest, rfl, ?_⟩
      rw [hshape] at hmn
      exact hmn

/-- Top-level shape of a single `infer` result: never a union, never
`unknown`, and the null primitive exactly for the literal `null`. -/
theorem infer_shape (s : InferSettings) (v : Json) (path : List String) (st : InferState) :
    isUnionType (infer s v path st).1 = false ∧
    isUnknownType (infer s v path st).1 = false ∧
    ((infer s v path st).1 = .primitive .null ↔ v = .null) := by
  cases v with
  | null => simp [infer, isUnionType, isUnknownType]
  | bool b => simp [infer, isUnionType, isUnknownType]
  | num m => simp [infer, isUnionType, isUnknownType]
  | str sv =>
    by_cases hd : s.detectDates && isoMatch sv <;>
      simp [infer, hd, isUnionType, isUnknownType]
  | obj kvs => simp [infer, inferObject, ObjectType.toType, isUnionType, isUnknownType]
  | arr xs =>
    simp only [infer]
    by_cases he : xs.isEmpty
    · simp [inferArray, he, isUnionType, isUnknownType]
    · simp only [inferArray, he, Bool.false_eq_true, if_false]
      by_cases h₁ : ((inferElems s xs path 0 st).1.filterMap asObject).length = xs.length
      · rw [if_pos h₁]
        simp [isUnionType, isUnknownType, ObjectType.toType]
      · rw [if_neg h₁]
        by_cases h₂ : ((inferElems s xs path 0 st).1.filterMap asObject).length = 0
        · rw [if_pos h₂]
          simp [isUnionType, isUnknownType]
        · rw [if_neg h₂]
          simp [isUnionType, isUnknownType]

/-- The element loop returns one type per element. -/
theorem inferElems_length (s : InferSettings) :
    ∀ (xs : List Json) (path : List String) (i : Nat) (st : InferState),
      (inferElems s xs path i st).1.length = xs.length := by
  intro xs
  induction xs with
  | nil => intro path i st; simp [inferElems]
  | cons x rest ih =>
    intro path i st
    simp only [inferElems, List.length_cons]
    rw [ih]

/-- A literal `null` element contributes a `Primitive(null)` entry to the
collected element types. -/
theorem inferElems_mem_null (s : InferSettings) :
    ∀ (xs : List Json) (path : List String) (i : Nat) (st : InferState),
      Json.null ∈ xs →
      (InferredType.primitive .null) ∈ (inferElems s xs path i st).1 := by
  intro xs
  induction xs with
  | nil => intro path i st h; simp at h
  | cons x rest ih =>
    intro path i st h
    simp only [inferElems]
    rcases List.mem_cons.1 h with h₁ | h₁
    · rw [← h₁]
      simp [infer]
    · exact List.mem_cons_of_mem _ (ih path (i + 1) _ h₁)

/-- A non-null element contributes a type that is neither `Primitive(null)`
nor `unknown`. -/
theorem inferElems_mem_notnull (s : InferSettings) :
    ∀ (xs : List Json) (path : List String) (i : Nat) (st : InferState) (x : Json),
      x ∈ xs → x ≠ Json.null →
      ∃ t ∈ (inferElems s xs path i st).1,
        t ≠ .primitive .null ∧ t ≠ .unknown := by
  intro xs
  induction xs with
  | nil => intro path i st x hx _; simp at hx
  | cons y rest ih =>
    intro path i st x hx hxn
    simp only [inferElems]
    rcases List.mem_cons.1 hx with heq | h₁
    · have hyn : y ≠ Json.null := heq ▸ hxn
      refine ⟨(infer s y (path ++ ["[" ++ Nat.repr i ++ "]"]) st).1,
        List.mem_cons_self _ _, ?_, ?_⟩
      · intro hc
        exact hyn (((infer_shape s y (path ++ ["[" ++ Nat.repr i ++ "]"]) st).2.2).1 hc)
      · intro hc
        have h₂ := (infer_shape s y (path ++ ["[" ++ Nat.repr i ++ "]"]) st).2.1
        rw [hc] at h₂
        simp [isUnknownType] at h₂
    · obtain ⟨t, ht, hprop⟩ := ih path (i + 1) _ x h₁ hxn
      exact ⟨t, List.mem_cons_of_mem _ ht, hprop⟩

/-- No element type produced by the element loop is a union. -/
theorem inferElems_not_union (s : InferSettings) :
    ∀ (xs : List Json) (path : List String) (i : Nat) (st : InferState),
      ∀ t ∈ (inferElems s xs path i st).1, isUnionType t = false := by
  intro xs
  induction xs with
  | nil => intro path i st t ht; simp [inferElems] at ht
  | cons y rest ih =>
    intro path i st t ht
    simp only [inferElems] at ht
    rcases List.mem_cons.1 ht with rfl | h₁
    · exact (infer_shape s y _ st).1
    · exact ih path (i + 1) _ t h₁

/-- `filterMap` never lengthens a list. -/
theorem filterMap_length_le {α β : Type} (f : α → Option β) :
    ∀ (l : List α), (l.filterMap f).length ≤ l.length := by
  intro l
  induction l with
  | nil => simp
  | cons a l ih =>
    cases hfa : f a with
    | none => rw [List.filterMap_cons, hfa]; simp only [List.length_cons]; omega
    | some b => rw [List.filterMap_cons, hfa]; simp only [List.length_cons]; omega

/-- `filterMap` strictly shrinks a list containing an element it drops. -/
theorem length_filterMap_lt {α β : Type} (f : α → Option β) :
    ∀ (l : List α) (x : α), x ∈ l → f x = none →
      (l.filterMap f).length < l.length := by
  intro l
  induction l with
  | nil => intro x hx _; simp at hx
  | cons a l ih =>
    intro x hx hfx
    rcases List.mem_cons.1 hx with rfl | hx'
    · rw [List.filterMap_cons, hfx]
      have h := filterMap_length_le f l
      simp only [List.length_cons]
      omega
    · cases hfa : f a with
      | none =>
        rw [List.filterMap_cons, hfa]
        have h := ih x hx' hfx
        simp only [List.length_cons]
        omega
      | some b =>
        rw [List.filterMap_cons, hfa]
        have h := ih x hx' hfx
        simp only [List.length_cons]
        omega

/-- When `filterMap` drops everything, every element maps to `none`. -/
theorem filterMap_nil_none {α β : Type} (f : α → Option β) :
    ∀ (l : List α), (l.filterMap f).length = 0 → ∀ x ∈ l, f x = none := by
  intro l
  induction l with
  | nil => intro _ x hx; simp at hx
  | cons a l ih =>
    intro h x hx
    cases hfa : f a with
    | some b =>
      rw [List.filterMap_cons, hfa] at h
      simp at h
    | none =>
      rw [List.filterMap_cons, hfa] at h
      rcases List.mem_cons.1 hx with rfl | hx'
      · exact hfa
      · exact ih h x hx'

/-- A type the object narrowing rejects is not an object. -/
theorem isObjectType_false_of_asObject_none {t : InferredType} (h : asObject t = none) :
    isObjectType t = false := by
  cases t <;> simp_all [asObject, isObjectType]

/-- Lifting of `mergeTypes_null_union` through the `(type, state)` pair built
by the non-object branches of `inferArray`. -/
theorem array_pair_null_union (st' : InferState) (ts : List InferredType)
    (hnu : ∀ t ∈ ts, isUnionType t = false)
    (hnull : (InferredType.primitive .null) ∈ ts)
    (hother : ∃ w ∈ ts, w ≠ .primitive .null ∧ w ≠ .unknown) :
    ∃ vs, ((InferredType.array (mergeTypes ts), st') : InferredType × InferState).1 =
      .array (.union vs) ∧ (InferredType.primitive .null) ∈ vs := by
  obtain ⟨vs, hvs, hm⟩ := mergeTypes_null_union ts hnu hnull hother
  exact ⟨vs, by rw [hvs], hm⟩

/-- An array with a `null` element and some non-null element infers to an
array of a union that keeps a `Primitive(null)` variant. -/
theorem inferArray_null_union {s : InferSettings} (xs : List Json) (path : List String)
    (st : InferState) (hnull : Json.null ∈ xs) (x : Json) (hx : x ∈ xs)
    (hxn : x ≠ Json.null) :
    ∃ vs, (inferArray s xs path st).1 = .array (.union vs) ∧
      (InferredType.primitive .null) ∈ vs := by
  have he : ¬(xs.isEmpty = true) := by
    cases xs with
    | nil => simp at hnull
    | cons a l => simp
  have hlen := inferElems_length s xs path 0 st
  have hmemnull := inferElems_mem_null s xs path 0 st hnull
  have hnu := inferElems_not_union s xs path 0 st
  obtain ⟨t, ht, htnn, htnu⟩ := inferElems_mem_notnull s xs path 0 st x hx hxn
  have h₁ : ¬(((inferElems s xs path 0 st).1.filterMap asObject).length = xs.length) := by
    have hlt := length_filterMap_lt asObject (inferElems s xs path 0 st).1
      (.primitive .null) hmemnull (by simp [asObject])
    omega
  simp only [inferArray, he, Bool.false_eq_true, if_false]
  rw [if_neg h₁]
  by_cases h₂ : ((inferElems s xs path 0 st).1.filterMap asObject).length = 0
  · rw [if_pos h₂]
    have hnoobj := filterMap_nil_none asObject (inferElems s xs path 0 st).1 h₂
    refine array_pair_null_union _ _ ?_ ?_ ?_
    · intro u hu
      exact hnu u (List.mem_of_mem_filter hu)
    · refine List.mem_filter.2 ⟨hmemnull, ?_⟩
      simp [isObjectType]
    · refine ⟨t, List.mem_filter.2 ⟨ht, ?_⟩, htnn, htnu⟩
      simp [isObjectType_false_of_asObject_none (hnoobj t ht)]
  · rw [if_neg h₂]
    refine array_pair_null_union _ _ ?_ ?_ ?_
    · intro u hu
      rcases List.mem_append.1 hu with h₃ | h₃
      · exact hnu u (List.mem_of_mem_filter h₃)
      · rw [List.mem_singleton.1 h₃]
        simp [ObjectType.toType, isUnionType]
    · refine List.mem_append.2 (.inl ?_)
      refine List.mem_filter.2 ⟨hmemnull, ?_⟩
      simp [isObjectType]
    · refine ⟨_, List.mem_append_right _ (List.mem_singleton_self _), ?_, ?_⟩
      · simp [ObjectType.toType]
      · simp [ObjectType.toType]

/-- The key loop records exactly `PropertyInfo(Unknown, false, true)` for a
key whose literal value is `null` (keys duplicate-free, as `Object.keys` of a
JSON object yields them). -/
theorem inferProps_lookup_null {s : InferSettings} :
    ∀ (kvs : List (String × Json)) (path : List String) (st : InferState) (k : String),
      (k, Json.null) ∈ kvs → (kvs.map Prod.fst).Nodup →
      assocLookup k (inferProps s kvs path st).1 =
        some (.mk .unknown false true) := by
  intro kvs
  induction kvs with
  | nil => intro path st k h _; simp at h
  | cons kv rest ih =>
    obtain ⟨k₁, v₁⟩ := kv
    intro path st k hmem hnodup
    simp only [inferProps]
    rcases List.mem_cons.1 hmem with heq | h₁
    · injection heq with hk hv
      subst hk
      subst hv
      simp [assocLookup, infer, isNullPrim]
    · have hk₁ : ¬(k₁ = k) := by
        intro hkk
        rw [List.map_cons, List.nodup_cons] at hnodup
        exact hnodup.1 (List.mem_map.2 ⟨(k, Json.null), h₁, hkk.symm⟩)
      rw [assocLookup, if_neg hk₁]
      refine ih path _ k h₁ ?_
      rw [List.map_cons, List.nodup_cons] at hnodup
      exact hnodup.2

/-- No property type recorded by the key loop is `Primitive(null)`. -/
theorem inferProps_not_nullprim {s : InferSettings} :
    ∀ (kvs : List (String × Json)) (path : List String) (st : InferState),
      ∀ kp ∈ (inferProps s kvs path st).1, isNullPrim kp.2.type = false := by
  intro kvs
  induction kvs with
  | nil => intro path st kp hkp; simp [inferProps] at hkp
  | cons kv rest ih =>
    obtain ⟨k, v⟩ := kv
    intro path st kp hkp
    simp only [inferProps] at hkp
    rcases List.mem_cons.1 hkp with rfl | h₁
    · by_cases hn : isNullPrim (infer s v (path ++ [k])
          { st with fieldCount := st.fieldCount + 1 }).1
      · simp only [hn, if_true, PropertyInfo.type]
        simp [isNullPrim]
      · simp only [hn, Bool.false_eq_true, if_false, PropertyInfo.type]
    · exact ih path _ kp h₁

/-- C6: null handling differs by position.  An object property whose literal
value is `null` is recorded as `PropertyInfo(Unknown, false, true)`, and no
property type the key loop records is ever `Primitive(null)`; whereas a `null`
element of an array that also has a non-null element (so its elements are not
all objects) surfaces as an actual `Primitive(null)` variant inside the
array-element union. -/
theorem spec_c6 :
    (∀ (s : InferSettings) (kvs : List (String × Json)) (path : List String)
        (st : InferState) (k : String),
      (k, Json.null) ∈ kvs → (kvs.map Prod.fst).Nodup →
      assocLookup k (inferProps s kvs path st).1 =
        some (.mk .unknown false true)) ∧
    (∀ (s : InferSettings) (kvs : List (String × Json)) (path : List String)
        (st : InferState),
      ∀ kp ∈ (inferProps s kvs path st).1, isNullPrim kp.2.type = false) ∧
    (∀ (s : InferSettings) (xs : List Json) (path : List String) (st : InferState),
      Json.null ∈ xs → (∃ x ∈ xs, x ≠ Json.null) →
      ∃ vs, (inferArray s xs path st).1 = .array (.union vs) ∧
        (InferredType.primitive .null) ∈ vs) := by
  refine ⟨fun s kvs path st k hmem hnodup =>
      inferProps_lookup_null kvs path st k hmem hnodup,
    fun s kvs path st => inferProps_not_nullprim kvs path st,
    fun s xs path st hnull hex => ?_⟩
  obtain ⟨x, hx, hxn⟩ := hex
  exact inferArray_null_union xs path st hnull x hx hxn

/-- Witness for C6 at the concrete object `{a: null}` and the concrete mixed
array `[1, null, "x"]`. -/
theorem spec_c6_witness :
    assocLookup "a"
        (inferProps ⟨"Root", false⟩ [("a", Json.null)] [] ⟨[], [], 0⟩).1 =
      some (.mk .unknown false true) ∧
    isNullPrim (PropertyInfo.mk .unknown false true).type = false ∧
    ∃ vs, (inferArray ⟨"Root", false⟩ [Json.num 1, Json.null, Json.str "x"] []
        ⟨[], [], 0⟩).1 = .array (.union vs) ∧ (InferredType.primitive .null) ∈ vs := by
  refine ⟨spec_c6.1 ⟨"Root", false⟩ [("a", Json.null)] [] ⟨[], [], 0⟩ "a"
      (by simp) (by simp),
    spec_c6.2.1 ⟨"Root", false⟩ [("a", Json.null)] [] ⟨[], [], 0⟩
      ("a", PropertyInfo.mk .unknown false true) ?_,
    spec_c6.2.2 ⟨"Root", false⟩ [Json.num 1, Json.null, Json.str "x"] [] ⟨[], [], 0⟩
      (by simp) ⟨Json.num 1, by simp, by simp⟩⟩
  simp [inferProps, infer, isNullPrim]

/-! ## C8: ISO date detection -/

/-- C8: with `detectDates = true` a string matching the embedded ISO-8601
pattern infers to `DateString` and pushes the info diagnostic at that path;
with `detectDates = false` every string infers to `Primitive(string)`; and the
schema emitter renders `DateString` as `z.string().datetime()` when
`detectDates` is on. -/
theorem spec_c8 :
    (∀ (s : InferSettings) (v : String) (path : List String) (st : InferState),
      s.detectDates = true → isoMatch v = true →
      infer s (.str v) path st = (.dateString, pushDiag st (isoDateDiag path))) ∧
    (∀ path : List String, (isoDateDiag path).level = DiagLevel.info ∧
      (isoDateDiag path).path = pathJoin path) ∧
    (∀ (s : InferSettings) (v : String) (path : List String) (st : InferState),
      s.detectDates = false →
      infer s (.str v) path st = (.primitive .string, st)) ∧
    (∀ gs : GenerateSettings, gs.detectDates = true →
      typeToZod .dateString gs = "z.string().datetime()") := by
  refine ⟨fun s v path st hd hiso => ?_, fun path => ⟨rfl, rfl⟩,
    fun s v path st hd => ?_, fun gs hg => ?_⟩
  · simp [infer, hd, hiso]
  · simp [infer, hd]
  · simp [typeToZod, hg]

/-- Witness for C8 at the ISO string `2025-01-15T09:30:00.000Z` under the
path `createdAt`, with date detection on and off. -/
theorem spec_c8_witness :
    infer ⟨"Root", true⟩ (.str "2025-01-15T09:30:00.000Z") ["createdAt"] ⟨[], [], 0⟩ =
      (.dateString, pushDiag ⟨[], [], 0⟩ (isoDateDiag ["createdAt"])) ∧
    (isoDateDiag ["createdAt"]).level = DiagLevel.info ∧
    (isoDateDiag ["createdAt"]).path = pathJoin ["createdAt"] ∧
    infer ⟨"Root", false⟩ (.str "2025-01-15T09:30:00.000Z") ["createdAt"] ⟨[], [], 0⟩ =
      (.primitive .string, ⟨[], [], 0⟩) ∧
    typeToZod .dateString ⟨"Root", .type, false, true, false⟩ = "z.string().datetime()" := by
  refine ⟨spec_c8.1 ⟨"Root", true⟩ "2025-01-15T09:30:00.000Z" ["createdAt"] ⟨[], [], 0⟩ rfl
      (by decide),
    (spec_c8.2.1 ["createdAt"]).1, (spec_c8.2.1 ["createdAt"]).2,
    spec_c8.2.2.1 ⟨"Root", false⟩ "2025-01-15T09:30:00.000Z" ["createdAt"] ⟨[], [], 0⟩ rfl,
    spec_c8.2.2.2 ⟨"Root", .type, false, true, false⟩ rfl⟩

/-! ## C9: the snake-to-camel asymmetry between the three emitters -/

/-- Pointwise equal functions map lists equally. -/
theorem map_congr_mem {α β : Type} (f g : α → β) :
    ∀ (l : List α), (∀ a ∈ l, f a = g a) → l.map f = l.map g := by
  intro l
  induction l with
  | nil => intro _; rfl
  | cons a l ih =>
    intro h
    simp only [List.map_cons]
    rw [h a (List.mem_cons_self _ _), ih (fun b hb => h b (List.mem_cons_of_mem _ hb))]

/-- `typeToZod` reads only `detectDates` from its settings (size-bounded
auxiliary). -/
theorem typeToZod_settings_aux :
    ∀ (n : Nat) (t : InferredType) (gs gs' : GenerateSettings),
      sizeOf t ≤ n → gs.detectDates = gs'.detectDates →
      typeToZod t gs = typeToZod t gs' := by
  intro n
  induction n using Nat.strong_induction_on with
  | _ n ih =>
    intro t gs gs' hle hdd
    cases t with
    | primitive k => cases k <;> simp [typeToZod]
    | unknown => simp [typeToZod]
    | dateString => simp [typeToZod, hdd]
    | object props name => simp [typeToZod]
    | array e =>
      simp only [typeToZod]
      have h₂ : sizeOf (InferredType.array e) = 1 + sizeOf e := by simp
      rw [ih (sizeOf e) (by omega) e gs gs' (le_refl _) hdd]
    | union vs =>
      simp only [typeToZod]
      have hv : vs.attach.map (fun x => typeToZod x.1 gs) =
          vs.attach.map (fun x => typeToZod x.1 gs') := by
        apply map_congr_mem
        intro x _
        have h₁ := List.sizeOf_lt_of_mem x.2
        have h₂ : sizeOf (InferredType.union vs) = 1 + sizeOf vs := by simp
        exact ih (sizeOf x.1) (by omega) x.1 gs gs' (le_refl _) hdd
      rw [hv]

/-- `typeToZod` does not depend on the `snakeToCamel` flag. -/
theorem typeToZod_ignores_snake (t : InferredType) (gs : GenerateSettings) (b : Bool) :
    typeToZod t { gs with snakeToCamel := b } = typeToZod t gs :=
  typeToZod_settings_aux (sizeOf t) t { gs with snakeToCamel := b } gs (le_refl _) rfl

/-- A schema field line is unchanged by the `snakeToCamel` flag. -/
theorem schemaFieldEntry_ignores_snake (gs : GenerateSettings) (b : Bool)
    (kp : String × PropertyInfo) :
    schemaFieldEntry { gs with snakeToCamel := b } kp = schemaFieldEntry gs kp := by
  simp only [schemaFieldEntry]
  rw [typeToZod_ignores_snake kp.2.type gs b]

/-- The whole object schema is unchanged by the `snakeToCamel` flag. -/
theorem generateObjectSchema_ignores_snake (o : ObjectType) (gs : GenerateSettings) (b : Bool) :
    generateObjectSchema o { gs with snakeToCamel := b } = generateObjectSchema o gs := by
  have hf : schemaFieldEntry { gs with snakeToCamel := b } = schemaFieldEntry gs :=
    funext (schemaFieldEntry_ignores_snake gs b)
  simp only [generateObjectSchema, hf]

/-- C9: with `snakeToCamel = true` a snake_case key is rewritten to camelCase
by the declaration field line (with an annotation mapping the rewritten key
back to the original) and by the example field line, while the schema field
line always carries the original key and the whole schema output is
independent of the `snakeToCamel` flag. -/
theorem spec_c9 :
    (∀ (gs : GenerateSettings) (kp : String × PropertyInfo),
      gs.snakeToCamel = true → isSnakeCase kp.1 = true →
      declFieldEntry gs kp =
        "  " ++ snakeToCamel kp.1 ++ (if kp.2.optional then "?" else "") ++ ": " ++
          typeToTS kp.2.type gs ++ (if kp.2.nullable then " | null" else "") ++ ";") ∧
    (∀ (gs : GenerateSettings) (props : List (String × PropertyInfo))
        (kp : String × PropertyInfo),
      gs.snakeToCamel = true → kp ∈ props → isSnakeCase kp.1 = true →
      ("  // \"" ++ snakeToCamel kp.1 ++ "\" maps to JSON key \"" ++ kp.1 ++ "\"")
        ∈ declAnnotations gs props) ∧
    (∀ (gs : GenerateSettings) (i : Nat) (kp : String × PropertyInfo),
      gs.snakeToCamel = true → isSnakeCase kp.1 = true →
      exampleField gs i kp =
        padOf (i + 1) ++ snakeToCamel kp.1 ++ ": " ++
          (if kp.2.nullable then "null" else generateValue kp.2.type gs (i + 1)) ++ ",") ∧
    (∀ (gs : GenerateSettings) (kp : String × PropertyInfo),
      schemaFieldEntry gs kp =
        "  " ++ kp.1 ++ ": " ++
          (if kp.2.optional then
            (if kp.2.nullable then typeToZod kp.2.type gs ++ ".nullable()"
             else typeToZod kp.2.type gs) ++ ".optional()"
           else
            (if kp.2.nullable then typeToZod kp.2.type gs ++ ".nullable()"
             else typeToZod kp.2.type gs)) ++ ",") ∧
    (∀ (o : ObjectType) (gs : GenerateSettings) (b : Bool),
      generateObjectSchema o { gs with snakeToCamel := b } = generateObjectSchema o gs) := by
  refine ⟨fun gs kp hs hk => ?_, fun gs props kp hs hmem hk => ?_,
    fun gs i kp hs hk => ?_, fun gs kp => ?_,
    fun o gs b => generateObjectSchema_ignores_snake o gs b⟩
  · simp [declFieldEntry, hs, hk]
  · simp only [declAnnotations]
    exact List.mem_filterMap.2 ⟨kp, hmem, by simp [hs, hk]⟩
  · simp [exampleField, hs, hk]
  · simp [schemaFieldEntry]

/-- Witness for C9 at the snake_case key `user_id` with a number-typed,
non-optional, non-nullable property. -/
theorem spec_c9_witness :
    declFieldEntry ⟨"Root", .type, false, false, true⟩
        ("user_id", .mk (.primitive .number) false false) =
      "  " ++ snakeToCamel "user_id" ++ "" ++ ": " ++
        typeToTS (.primitive .number) ⟨"Root", .type, false, false, true⟩ ++ "" ++ ";" ∧
    ("  // \"" ++ snakeToCamel "user_id" ++ "\" maps to JSON key \"" ++ "user_id" ++ "\"")
      ∈ declAnnotations ⟨"Root", .type, false, false, true⟩
          [("user_id", .mk (.primitive .number) false false)] ∧
    exampleField ⟨"Root", .type, false, false, true⟩ 0
        ("user_id", .mk (.primitive .number) false false) =
      padOf 1 ++ snakeToCamel "user_id" ++ ": " ++
        generateValue (.primitive .number) ⟨"Root", .type, false, false, true⟩ 1 ++ "," ∧
    schemaFieldEntry ⟨"Root", .type, false, false, true⟩
        ("user_id", .mk (.primitive .number) false false) =
      "  " ++ "user_id" ++ ": " ++
        typeToZod (.primitive .number) ⟨"Root", .type, false, false, true⟩ ++ "," ∧
    generateObjectSchema ⟨[("user_id", .mk (.primitive .number) false false)], "Root"⟩
        ⟨"Root", .type, false, false, true⟩ =
      generateObjectSchema ⟨[("user_id", .mk (.primitive .number) false false)], "Root"⟩
        ⟨"Root", .type, false, false, false⟩ := by
  refine ⟨spec_c9.1 ⟨"Root", .type, false, false, true⟩
      ("user_id", .mk (.primitive .number) false false) rfl (by decide),
    spec_c9.2.1 ⟨"Root", .type, false, false, true⟩
      [("user_id", .mk (.primitive .number) false false)]
      ("user_id", .mk (.primitive .number) false false) rfl (by simp) (by decide),
    spec_c9.2.2.1 ⟨"Root", .type, false, false, true⟩ 0
      ("user_id", .mk (.primitive .number) false false) rfl (by decide),
    spec_c9.2.2.2.1 ⟨"Root", .type, false, false, true⟩
      ("user_id", .mk (.primitive .number) false false),
    spec_c9.2.2.2.2 ⟨[("user_id", .mk (.primitive .number) false false)], "Root"⟩
      ⟨"Root", .type, false, false, false⟩ true⟩

end J2T
